import Mathlib

/-!
Verification development for the wiseia-v2-backend retrieval pipeline.

Texts are modelled as `List Char` (JavaScript strings), identifiers as `Nat`
or `String`, machine floats as exact reals `ℝ` (the idealised arithmetic the
spec reasons in), and remote calls (embedding model, LLM, database) as
explicit function or data parameters.  Each definition is a direct
translation of one function of the source tree; the namespace names the
source module it comes from.
-/

set_option maxRecDepth 10000

/-- Whitespace characters as they occur in this codebase (space, newline, tab,
carriage return); models the character class used by the JavaScript `trim()`
and the `\s` regex class on these texts. -/
def isWS (c : Char) : Bool :=
  c = ' ' || c = '\n' || c = '\t' || c = '\r'

/-- Left trim: drop leading whitespace. -/
def ltrim (l : List Char) : List Char :=
  l.dropWhile isWS

/-- Right trim: drop trailing whitespace. -/
def rtrim (l : List Char) : List Char :=
  (l.reverse.dropWhile isWS).reverse

/-- Model of JavaScript `String.prototype.trim`. -/
def jsTrim (l : List Char) : List Char :=
  rtrim (ltrim l)

/-- Model of JavaScript `String.prototype.toLowerCase` (ASCII as used here). -/
def jsToLower (l : List Char) : List Char :=
  l.map Char.toLower

/-- Model of JavaScript `String.prototype.toUpperCase` (ASCII as used here). -/
def jsToUpper (l : List Char) : List Char :=
  l.map Char.toUpper

/-- Model of JavaScript `String.prototype.includes`: `needle` occurs as a
contiguous substring of `hay`. -/
def jsIncludes (hay needle : List Char) : Bool :=
  match hay with
  | [] => needle.isEmpty
  | _ :: rest => needle.isPrefixOf hay || jsIncludes rest needle

/-- Model of JavaScript `Array.prototype.slice(0, k)` for an integer bound
`k`: a negative `k` counts from the end of the array. -/
def jsSliceTo (k : ℤ) (l : List α) : List α :=
  if k < 0 then l.take ((l.length : ℤ) + k).toNat else l.take k.toNat

namespace Chunker2

/-!
Embedding of `src/services/textChunker.ts` (source file `unnamed/part_002`):
`chunkText`, its paragraph splitter (JS `text.split(/\n\n+/)`), the sentence
splitter (JS `text.split(/([.!?]+\s+)/)`), and `getOverlap`.
-/

/-- A chunk produced by `chunkText` (interface `Chunk` of textChunker.ts). -/
structure Chunk where
  text : List Char
  index : Nat
  characterCount : Nat
deriving DecidableEq, Repr

/-- State machine for `text.split(/\n\n+/)`: split on maximal runs of two or
more newline characters.  `acc` holds the current paragraph reversed, `nl`
the length of the pending run of newline characters. -/
def splitParasGo : List Char → List Char → Nat → List (List Char)
| [], acc, nl =>
    if 2 ≤ nl then [acc.reverse, []]
    else [(List.replicate nl '\n' ++ acc).reverse]
| c :: rest, acc, nl =>
    if c = '\n' then splitParasGo rest acc (nl + 1)
    else if 2 ≤ nl then acc.reverse :: splitParasGo rest [c] 0
    else splitParasGo rest (c :: (List.replicate nl '\n' ++ acc)) 0

/-- JS `text.split(/\n\n+/)`. -/
def splitParas (cs : List Char) : List (List Char) :=
  splitParasGo cs [] 0

/-- The punctuation class `[.!?]` of the sentence-splitting regex. -/
def isPunct (c : Char) : Bool :=
  c = '.' || c = '!' || c = '?'

/-- State machine for `text.split(/([.!?]+\s+)/)` with the captured separator
kept: alternating text / separator pieces.  `acc` is the current text piece
reversed, `pr` a pending punctuation run reversed, `wr` a pending whitespace
run (after at least one punctuation character) reversed. -/
def splitSentGo : List Char → List Char → List Char → List Char → List (List Char)
| [], acc, pr, wr =>
    if wr.isEmpty then [(pr ++ acc).reverse]
    else [acc.reverse, (wr ++ pr).reverse, []]
| c :: rest, acc, pr, wr =>
    if !wr.isEmpty then
      if isWS c then splitSentGo rest acc pr (c :: wr)
      else if isPunct c then acc.reverse :: (wr ++ pr).reverse :: splitSentGo rest [] [c] []
      else acc.reverse :: (wr ++ pr).reverse :: splitSentGo rest [c] [] []
    else if !pr.isEmpty then
      if isPunct c then splitSentGo rest acc (c :: pr) wr
      else if isWS c then splitSentGo rest acc pr [c]
      else splitSentGo rest (c :: (pr ++ acc)) [] []
    else
      if isPunct c then splitSentGo rest acc [c] []
      else splitSentGo rest (c :: acc) [] []

/-- Recombination loop of `splitIntoSentences`: pair each sentence with the
following separator piece and trim. -/
def sentCombine : List (List Char) → List (List Char)
| [] => []
| [a] => [jsTrim a]
| a :: b :: rest => jsTrim (a ++ b) :: sentCombine rest

/-- Definition `splitIntoSentences` of textChunker.ts. -/
def splitIntoSentences (cs : List Char) : List (List Char) :=
  let sentences := (splitSentGo cs [] [] []).filter (fun s => !(jsTrim s).isEmpty)
  (sentCombine sentences).filter (fun s => !s.isEmpty)

/-- Definition `getOverlap` of textChunker.ts.  Note JS `text.slice(-0)` is the whole
string, which the `overlapSize = 0` branch reproduces. -/
def getOverlap (text : List Char) (overlapSize : Nat) : List Char :=
  if text.length ≤ overlapSize then text
  else
    let endPart := if overlapSize = 0 then text else text.drop (text.length - overlapSize)
    match endPart.findIdx? (fun c => c = ' ') with
    | some i => if 0 < i ∧ 2 * i < overlapSize then endPart.drop (i + 1) else endPart
    | none => endPart

/-- Mutable state of the `chunkText` main loop. -/
structure St where
  chunks : List Chunk
  current : List Char
  idx : Nat
  prevEnd : List Char
deriving DecidableEq, Repr

/-- Inner loop of the long-paragraph branch: accumulate sentences, emitting a
chunk when the next sentence would overflow `targetSize`. -/
def sentStep (targetSize overlap : Nat) (st : St × List Char) (s : List Char) : St × List Char :=
  let st₀ := st.1
  let sc := st.2
  if 0 < sc.length ∧ targetSize < sc.length + s.length then
    let finalChunk := st₀.prevEnd ++ sc
    (⟨st₀.chunks ++ [⟨jsTrim finalChunk, st₀.idx, finalChunk.length⟩],
      st₀.current, st₀.idx + 1, getOverlap sc overlap⟩, s ++ [' '])
  else
    (st₀, sc ++ s ++ [' '])

/-- One iteration of the `for (const paragraph of paragraphs)` loop of
`chunkText`. -/
def chunkStep (targetSize overlap : Nat) (st : St) (p : List Char) : St :=
  let tp := jsTrim p
  if 0 < st.current.length ∧ targetSize < st.current.length + tp.length then
    let finalChunk := st.prevEnd ++ st.current
    ⟨st.chunks ++ [⟨jsTrim finalChunk, st.idx, finalChunk.length⟩],
      tp ++ ['\n', '\n'], st.idx + 1, getOverlap st.current overlap⟩
  else if 3 * targetSize < 2 * tp.length then
    let st₁ : St :=
      if 0 < st.current.length then
        let finalChunk := st.prevEnd ++ st.current
        ⟨st.chunks ++ [⟨jsTrim finalChunk, st.idx, finalChunk.length⟩],
          [], st.idx + 1, getOverlap st.current overlap⟩
      else st
    let sentences := splitIntoSentences tp
    let res := sentences.foldl (sentStep targetSize overlap) (st₁, [])
    let st₂ := res.1
    let sc := res.2
    if !(jsTrim sc).isEmpty then
      ⟨st₂.chunks, sc ++ ['\n', '\n'], st₂.idx, st₂.prevEnd⟩
    else
      ⟨st₂.chunks, st₂.current, st₂.idx, st₂.prevEnd⟩
  else
    ⟨st.chunks, st.current ++ tp ++ ['\n', '\n'], st.idx, st.prevEnd⟩

/-- Definition `chunkText(text, targetSize = 800, overlap = 100)` of textChunker.ts. -/
def chunkText (text : List Char) (targetSize : Nat := 800) (overlap : Nat := 100) : List Chunk :=
  if (jsTrim text).isEmpty then []
  else
    let paragraphs := (splitParas text).filter (fun p => !(jsTrim p).isEmpty)
    let st := paragraphs.foldl (chunkStep targetSize overlap) ⟨[], [], 0, []⟩
    if !(jsTrim st.current).isEmpty then
      let finalChunk := st.prevEnd ++ st.current
      st.chunks ++ [⟨jsTrim finalChunk, st.idx, finalChunk.length⟩]
    else st.chunks

end Chunker2

/-- Model of JS `text.replace(/\r\n/g, "\n")`: global left-to-right
replacement of CRLF pairs. -/
def replaceCRLF : List Char → List Char
| [] => []
| [c] => [c]
| c :: d :: rest =>
    if c = '\r' ∧ d = '\n' then '\n' :: replaceCRLF rest
    else c :: replaceCRLF (d :: rest)

namespace Ingest

/-!
Embedding of `src/modules/documents/documents.ingest.service.ts`:
`normalizeText`, `createChunks` and a model of `ingestDocumentById` where the
database tables and the remote calls are explicit parameters.
-/

/-- Definition `normalizeText`: CRLF to LF, tabs to spaces, trim. -/
def normalizeText (text : List Char) : List Char :=
  jsTrim ((replaceCRLF text).map (fun c => if c = '\t' then ' ' else c))

/-- The `while (start < len)` loop of `createChunks`, structured on a fuel
argument; `chunkSize > overlap` makes `start` strictly increase, so a fuel of
`clean.length` always suffices.  (For `overlap ≥ chunkSize` the JS loop does
not terminate on long inputs; exhausted fuel returns the chunks emitted so
far.) -/
def createChunksLoop (clean : List Char) (chunkSize overlap : Nat) : Nat → Nat → List (List Char)
| 0, _ => []
| fuel + 1, start =>
    if start < clean.length then
      let endPos := min clean.length (start + chunkSize)
      let slice := jsTrim ((clean.drop start).take (endPos - start))
      let piece := if slice.isEmpty then [] else [slice]
      if endPos = clean.length then piece
      else piece ++ createChunksLoop clean chunkSize overlap fuel (endPos - overlap)
    else []

/-- Definition `createChunks(text, chunkSize = 1200, overlap = 200)`. -/
def createChunks (text : List Char) (chunkSize : Nat := 1200) (overlap : Nat := 200) :
    List (List Char) :=
  let clean := normalizeText text
  createChunksLoop clean chunkSize overlap (clean.length + 1) 0

/-- A row of the `DocumentChunks` table as touched by ingestion. -/
structure ChunkRow where
  chunkId : Nat
  documentId : Nat
  chunkIndex : Nat
  text : List Char
deriving DecidableEq, Repr

/-- A row of the `ChunkEmbeddings` table as touched by ingestion; the vector
is kept as rationals (its values never matter to the claims below). -/
structure EmbeddingRow where
  chunkId : Nat
  embedding : List ℚ
deriving DecidableEq, Repr

/-- The slice of the database that `ingestDocumentById` reads and writes. -/
structure Store where
  chunkRows : List ChunkRow
  embeddingRows : List EmbeddingRow
  nextChunkId : Nat
deriving DecidableEq, Repr

/-- Definition `deleteChunksAndEmbeddingsForDocument`. -/
def deleteChunksFor (documentId : Nat) (s : Store) : Store :=
  { s with
    chunkRows := s.chunkRows.filter (fun r => r.documentId ≠ documentId)
    embeddingRows := s.embeddingRows.filter (fun e =>
      (s.chunkRows.filter (fun r => r.documentId = documentId)).all
        (fun r => r.chunkId ≠ e.chunkId)) }

/-- The per-chunk loop of `ingestDocumentById`: `insertChunk` commits, then
`embedText` runs (a remote call that can fail); each database write is an
individual statement, there is no enclosing transaction, so a failure leaves
all previous writes in place. -/
def ingestLoop (embedText : List Char → Except Unit (List ℚ)) (documentId : Nat) :
    List (Nat × List Char) → Store → Except Store (Store × Nat)
| [], s => .ok (s, 0)
| (i, t) :: rest, s =>
    let cid := s.nextChunkId
    let s₁ : Store :=
      { s with chunkRows := s.chunkRows ++ [⟨cid, documentId, i, t⟩], nextChunkId := cid + 1 }
    match embedText t with
    | .error _ => .error s₁
    | .ok v =>
        let s₂ := { s₁ with embeddingRows := s₁.embeddingRows ++ [⟨cid, v⟩] }
        match ingestLoop embedText documentId rest s₂ with
        | .error s₃ => .error s₃
        | .ok (s₃, n) => .ok (s₃, n + 1)

/-- Definition `ingestDocumentById`, with the OCR text lookup and the embedding service
as parameters.  The result carries the database state both on success and on
failure (the state the thrown error leaves behind). -/
def ingestDocumentById (embedText : List Char → Except Unit (List ℚ))
    (ocrText : Option (List Char)) (documentId : Nat) (s : Store) :
    Except Store (Store × Nat × Nat) :=
  match ocrText with
  | none => .error s
  | some text =>
      if (jsTrim text).isEmpty then .error s
      else
        let chunks := createChunks text
        if chunks.isEmpty then .error s
        else
          let s₁ := deleteChunksFor documentId s
          match ingestLoop embedText documentId (chunks.enum) s₁ with
          | .error s₂ => .error s₂
          | .ok (s₂, n) => .ok (s₂, chunks.length, n)

end Ingest

/-- The lexicographic relation on position-tagged elements: higher score
first, and among equal scores the smaller original position first.  A stable
sort with the JS comparator `(a, b) => score(b) - score(a)` orders the array
exactly this way. -/
def scoreDescRel (score : α → ℝ) (x y : ℕ × α) : Prop :=
  score y.2 < score x.2 ∨ (score x.2 = score y.2 ∧ x.1 ≤ y.1)

noncomputable instance (score : α → ℝ) : DecidableRel (scoreDescRel score) := fun _ _ => by
  unfold scoreDescRel
  infer_instance

instance (score : α → ℝ) : IsTotal (ℕ × α) (scoreDescRel score) where
  total x y := by
    rcases lt_trichotomy (score x.2) (score y.2) with h | h | h
    · exact Or.inr (Or.inl h)
    · rcases Nat.le_total x.1 y.1 with hn | hn
      · exact Or.inl (Or.inr ⟨h, hn⟩)
      · exact Or.inr (Or.inr ⟨h.symm, hn⟩)
    · exact Or.inl (Or.inl h)

instance (score : α → ℝ) : IsTrans (ℕ × α) (scoreDescRel score) where
  trans x y z hxy hyz := by
    rcases hxy with h₁ | ⟨e₁, n₁⟩
    · rcases hyz with h₂ | ⟨e₂, _⟩
      · exact Or.inl (h₂.trans h₁)
      · exact Or.inl (e₂ ▸ h₁)
    · rcases hyz with h₂ | ⟨e₂, n₂⟩
      · exact Or.inl (e₁ ▸ h₂)
      · exact Or.inr ⟨e₁.trans e₂, n₁.trans n₂⟩

/-- Model of the stable JS `Array.prototype.sort((a, b) => score(b) - score(a))`:
the stable descending sort by score of a list equals sorting its
position-tagged copy by `scoreDescRel`. -/
noncomputable def stableSortByScoreDesc (score : α → ℝ) (l : List α) : List (ℕ × α) :=
  l.enum.insertionSort (scoreDescRel score)

namespace RagV2

/-!
Embedding of the JSON-corpus RAG service `src/ai/ragService.ts` (source file
`unnamed/part_007`) together with the record types of `src/ai/types.ts`
(`unnamed/part_005`): `chunkText`, `cosineSimilarity`, `scoreBySubstring`,
`search`, `buildContext` and `answerWithLLM`.  Remote calls (query embedding,
LLM) and the score formatting `score.toFixed(3)` are explicit parameters.
-/

/-- The `while (start < clean.length)` loop of `chunkText`, on a fuel
argument; with `overlap < chunkSize` the start index strictly increases and a
fuel of `clean.length` suffices (for `overlap ≥ chunkSize` the JS loop does
not terminate on long inputs; exhausted fuel returns the chunks so far). -/
def chunkLoop (clean : List Char) (chunkSize overlap : Nat) : Nat → Nat → List (List Char)
| 0, _ => []
| fuel + 1, start =>
    if start < clean.length then
      let endPos := min (start + chunkSize) clean.length
      let piece := jsTrim ((clean.drop start).take (endPos - start))
      let pieces := if piece.isEmpty then [] else [piece]
      if endPos = clean.length then pieces
      else pieces ++ chunkLoop clean chunkSize overlap fuel (endPos - overlap)
    else []

/-- Definition `chunkText(text, chunkSize = 1000, overlap = 200)` of part_007. -/
def chunkText (text : List Char) (chunkSize : Nat := 1000) (overlap : Nat := 200) :
    List (List Char) :=
  if text.isEmpty then []
  else
    let clean := replaceCRLF text
    chunkLoop clean chunkSize overlap (clean.length + 1) 0

/-- Definition `cosineSimilarity` of part_007: zero for vectors of different lengths,
zero when either norm is zero, otherwise `dot / (sqrt normA * sqrt normB)`. -/
noncomputable def cosineSimilarity (a b : List ℝ) : ℝ :=
  if a.length ≠ b.length then 0
  else
    let dot := (List.zipWith (· * ·) a b).sum
    let normA := (List.zipWith (· * ·) a a).sum
    let normB := (List.zipWith (· * ·) b b).sum
    if normA = 0 ∨ normB = 0 then 0
    else dot / (Real.sqrt normA * Real.sqrt normB)

/-- JS `q.split(/\s+/).filter(Boolean)`: the whitespace-separated words. -/
def wordsGo : List Char → List Char → List (List Char)
| [], acc => if acc.isEmpty then [] else [acc.reverse]
| c :: rest, acc =>
    if isWS c then
      if acc.isEmpty then wordsGo rest [] else acc.reverse :: wordsGo rest []
    else wordsGo rest (c :: acc)

/-- The word list of a query (split on whitespace runs, empties dropped). -/
def wordsOf (l : List Char) : List (List Char) :=
  wordsGo l []

/-- Definition `scoreBySubstring(chunk, query)` of part_007: `1` if the whole query
occurs in the chunk, otherwise the fraction of query terms occurring. -/
noncomputable def scoreBySubstring (chunk query : List Char) : ℝ :=
  let q := jsToLower query
  let t := jsToLower chunk
  if jsIncludes t q then 1
  else
    let terms := wordsOf q
    let hits := (terms.filter (fun term => jsIncludes t term)).length
    if hits = 0 then 0 else (hits : ℝ) / (terms.length : ℝ)

/-- Document metadata as written by `ingestBufferAsDocument` (the `metadata`
record of `DocumentRecord`). -/
structure Metadata where
  uploadedBy : Option ℤ
  companyId : Option ℤ
  divisionId : Option ℤ
  ownerUserId : Option ℤ
  tags : List (List Char)
  docType : Option (List Char)
deriving DecidableEq, Repr

/-- The empty metadata object used for `doc.metadata ?? {}`. -/
def emptyMetadata : Metadata :=
  ⟨none, none, none, none, [], none⟩

/-- Definition `DocumentRecord` of types.ts (fields the search path reads). -/
structure DocumentRecord where
  docId : String
  title : Option (List Char)
  departmentId : Option ℤ
  category : Option (List Char)
  metadata : Option Metadata
deriving DecidableEq, Repr

/-- Definition `ChunkRecord` of types.ts (fields the search path reads); the embedding
may be `null`. -/
structure ChunkRecord where
  chunkId : String
  docId : String
  index : ℤ
  text : List Char
  embedding : Option (List ℝ)

/-- Definition `SearchFilters` of types.ts. -/
structure SearchFilters where
  companyId : Option ℤ
  departmentId : Option ℤ
  divisionId : Option ℤ
  category : Option (List Char)
  ownerUserId : Option ℤ
  tagsContains : Option (List Char)
deriving DecidableEq, Repr

/-- Search filters with every field absent. -/
def noFilters : SearchFilters :=
  ⟨none, none, none, none, none, none⟩

/-- Definition `CorpusData` of types.ts: the JSON corpus, with documents and chunks as
JS objects (association lists keyed by id, in insertion order). -/
structure CorpusData where
  documents : List (String × DocumentRecord)
  chunks : List (String × ChunkRecord)
  totalDocs : Nat
  totalChunks : Nat

/-- The empty corpus. -/
def emptyCorpus : CorpusData :=
  ⟨[], [], 0, 0⟩

/-- JS object lookup `corpus.documents[docId]`. -/
def lookupDoc (corpus : CorpusData) (docId : String) : Option DocumentRecord :=
  (corpus.documents.find? (fun p => p.1 == docId)).map Prod.snd

/-- The filter conditions of the `for (const chunk of allChunks)` loop of
`search`: each clause mirrors one `continue`. -/
def keepDoc (filters : Option SearchFilters) (doc : DocumentRecord) : Bool :=
  let meta := doc.metadata.getD emptyMetadata
  (match filters.bind SearchFilters.companyId with
   | none => true
   | some c => meta.companyId == some c) &&
  (match filters.bind SearchFilters.departmentId with
   | none => true
   | some d => doc.departmentId == some d) &&
  (match filters.bind SearchFilters.divisionId with
   | none => true
   | some d => meta.divisionId == some d) &&
  (match filters.bind SearchFilters.ownerUserId with
   | none => true
   | some o => meta.ownerUserId == some o) &&
  (match filters.bind SearchFilters.category with
   | none => true
   | some cat => ((doc.category.or meta.docType).getD []) == cat) &&
  (match filters.bind SearchFilters.tagsContains with
   | none => true
   | some needle =>
       meta.tags.any (fun t => jsIncludes (jsToLower t) (jsToLower needle)))

/-- Definition `SearchResult` of types.ts (`document` is always set by `search`). -/
structure SearchResult where
  chunk : ChunkRecord
  score : ℝ
  document : DocumentRecord

/-- The blended score of one candidate inside `search`:
`semantic * 0.75 + lexical * 0.25`, semantic falling back to `0` for a chunk
without a stored embedding. -/
noncomputable def blendedScore (queryEmbedding : List ℝ) (query : List Char)
    (chunk : ChunkRecord) : ℝ :=
  let semanticScore :=
    match chunk.embedding with
    | some e => cosineSimilarity queryEmbedding e
    | none => 0
  let lexicalScore := scoreBySubstring chunk.text query
  semanticScore * 0.75 + lexicalScore * 0.25

/-- The `for (const chunk of allChunks)` filter loop of `search`: pair each
chunk with its owning document, dropping chunks with no document and chunks
whose document one of the filter clauses rejects. -/
def filteredPairs (filters : Option SearchFilters) (corpus : CorpusData) :
    List (ChunkRecord × DocumentRecord) :=
  (corpus.chunks.map Prod.snd).filterMap (fun chunk =>
    match lookupDoc corpus chunk.docId with
    | none => none
    | some doc => if keepDoc filters doc then some (chunk, doc) else none)

/-- The scoring loop of `search`: blend the scores and keep the results
strictly above the `0.35` relevance floor, in candidate order. -/
noncomputable def scoredResults (queryEmbedding : List ℝ) (query : List Char)
    (filters : Option SearchFilters) (corpus : CorpusData) : List SearchResult :=
  (filteredPairs filters corpus).filterMap (fun cd =>
    let finalScore := blendedScore queryEmbedding query cd.1
    if (0.35 : ℝ) < finalScore then
      some (⟨cd.1, finalScore, cd.2⟩ : SearchResult)
    else none)

/-- Definition `search(query, topK = 5, filters)` of part_007, with the corpus
(`corpusStore.loadCorpus()`) and the query embedding
(`embeddingsClient.createQueryEmbedding`) as parameters, and each result
tagged with its insertion position in the scored candidate array (so that
the stability of the JS sort is expressible). -/
noncomputable def searchTagged (queryEmbedding : List ℝ) (query : List Char) (topK : ℤ)
    (filters : Option SearchFilters) (corpus : CorpusData) : List (ℕ × SearchResult) :=
  if (corpus.chunks.map Prod.snd).isEmpty then []
  else if (filteredPairs filters corpus).isEmpty then []
  else
    jsSliceTo topK
      (stableSortByScoreDesc SearchResult.score (scoredResults queryEmbedding query filters corpus))

/-- Definition `search` as the source returns it (tags dropped). -/
noncomputable def search (queryEmbedding : List ℝ) (query : List Char) (topK : ℤ)
    (filters : Option SearchFilters) (corpus : CorpusData) : List SearchResult :=
  (searchTagged queryEmbedding query topK filters corpus).map Prod.snd

/-- The `for (const r of results)` loop of `buildContext`; `fmtScore` stands
for the float formatting `score.toFixed(3)`. -/
def buildContextGo (fmtScore : ℝ → List Char) (maxChars : Nat) :
    List SearchResult → Nat → List (List Char)
| [], _ => []
| r :: rest, count =>
    let snippet := r.chunk.text.take 1400
    let header :=
      "DOC ".toList ++ r.chunk.docId.toList ++ " (score=".toList ++ fmtScore r.score ++ "):".toList
    let block := header ++ ['\n'] ++ snippet ++ "\n---".toList
    if maxChars < count + block.length then []
    else block :: buildContextGo fmtScore maxChars rest (count + block.length)

/-- Definition `buildContext(results, maxChars = 6000)` of part_007. -/
def buildContext (fmtScore : ℝ → List Char) (results : List SearchResult)
    (maxChars : Nat := 6000) : List Char :=
  List.intercalate ['\n'] (buildContextGo fmtScore maxChars results 0)

/-- The prompt template of `answerWithLLM` (context and question are spliced
in twice, exactly as in the source template literal). -/
def answerPrompt (question context : List Char) : List Char :=
  jsTrim
    (("\nVocê é um assistente especialista em leitura de documentos empresariais.\n\nExtraia SEMPRE:\n• Quem é a empresa contratante\n• Quem é a empresa contratada\n• Quem representa legalmente as empresas (se aparecer)\n• Nome da pessoa física se houver \"representado por\", \"infra-assinado\" ou similar.\n\nSe houver uma pessoa física representando uma empresa:\n→ RESPONDA o nome dela explicitamente.\n\nNão responda com suposições.\nUse SOMENTE o que está no texto.\n------------------------------------\n\nCONTEXTO:\n".toList
      ++ context
      ++ "\n\n------------------------------------\nPergunta:\n".toList
      ++ question
      ++ "\nnça\".\n\n---------------- CONTEXTO ----------------\n".toList
      ++ context
      ++ "\n--------------- FIM CONTEXTO -------------\n\nPergunta:\n".toList
      ++ question))

/-- The value `answerWithLLM` produces, together with the number of LLM
invocations the call performs. -/
structure LLMAnswer where
  answer : List Char
  context : List Char
  llmCalls : Nat

/-- Definition `answerWithLLM(question, results)` of part_007, with the remote chat
model as a parameter (`llm prompt` is `(resp as any).output_text`, an absent
output falling back to the empty string).  The source builds the context and
then calls the LLM unconditionally: there is no empty-results branch. -/
noncomputable def answerWithLLM (llm : List Char → Option (List Char))
    (fmtScore : ℝ → List Char) (question : List Char) (results : List SearchResult) :
    LLMAnswer :=
  let context := buildContext fmtScore results
  let prompt := answerPrompt question context
  ⟨(llm prompt).getD [], context, 1⟩

end RagV2

/-- JS object property assignment `obj[k] = v` on an association list in
insertion order: replace the value in place when the key exists, otherwise
append the new property. -/
def jsObjSet (k : String) (v : α) : List (String × α) → List (String × α)
| [] => [(k, v)]
| (k₀, v₀) :: rest => if k₀ = k then (k, v) :: rest else (k₀, v₀) :: jsObjSet k v rest

/-- JS object property read `obj[k]`. -/
def jsObjGet (k : String) (l : List (String × α)) : Option α :=
  (l.find? (fun p => p.1 == k)).map Prod.snd

namespace CorpusStore

/-!
Embedding of `src/ai/corpusStore.ts`: `upsertDocumentWithChunks` over the
JSON corpus of `RagV2.CorpusData`.
-/

/-- Definition `upsertDocumentWithChunks(doc, chunks)`: assign the document under its
id, assign each chunk under its id, and refresh the key counters.  The
function only ever assigns keys; it deletes nothing. -/
def upsertDocumentWithChunks (doc : RagV2.DocumentRecord) (chunks : List RagV2.ChunkRecord)
    (corpus : RagV2.CorpusData) : RagV2.CorpusData :=
  let documents := jsObjSet doc.docId doc corpus.documents
  let chunkMap := chunks.foldl (fun m c => jsObjSet c.chunkId c m) corpus.chunks
  ⟨documents, chunkMap, documents.length, chunkMap.length⟩

end CorpusStore

namespace RagSql

/-!
Embedding of the SQL-path RAG service `src/src/ai/ragService.ts`:
`cosineSimilarity`, `getChunksFromDatabase` (its WHERE clause over the joined
`DocumentChunks ⋈ Documents ⟕ DocumentTypes ⋈ ChunkEmbeddings` rows) and
`askWithRag`.  GUID identifiers are modelled as opaque `Nat`s, timestamps
as `ℤ`, the database and the remote OpenAI calls as parameters.
-/

/-- Definition `cosineSimilarity` of the SQL-path ragService: the JS loop runs over the
indices of `a`, so `normB` sums only the first `a.length` squares of `b`,
and a zero (JS falsy) denominator is replaced by `1` (the `|| 1` guard).
For `a` longer than `b` the JS code produces `NaN`, which exact real
arithmetic cannot represent; the theorems below therefore assume
`a.length = b.length`, the only case arising in the pipeline. -/
noncomputable def cosineSimilarity (a b : List ℝ) : ℝ :=
  let dot := (List.zipWith (· * ·) a b).sum
  let normA := (List.zipWith (· * ·) a a).sum
  let normB := ((b.take a.length).map (fun x => x * x)).sum
  let den := Real.sqrt normA * Real.sqrt normB
  dot / (if den = 0 then 1 else den)

/-- Definition `RagScope` of the SQL-path ragService. -/
structure RagScope where
  companyId : Nat
  department : Option (List Char)
  division : Option (List Char)
  documentType : Option (List Char)
  documentIds : Option (List Nat)
  tags : Option (List (List Char))
  ownerUserId : Option Nat
  dateFrom : Option ℤ
  dateTo : Option ℤ
deriving DecidableEq, Repr

/-- A scope carrying only a tenant. -/
def tenantOnlyScope (companyId : Nat) : RagScope :=
  ⟨companyId, none, none, none, none, none, none, none, none⟩

/-- One row of the joined SELECT of `getChunksFromDatabase`: a chunk with its
document's columns (the INNER JOIN on `ChunkEmbeddings` means only chunks
with a stored embedding appear). -/
structure Row where
  chunkId : Nat
  documentId : Nat
  documentTitle : List Char
  chunkIndex : Nat
  text : List Char
  embedding : List ℝ
  companyId : Nat
  department : Option (List Char)
  documentType : Option (List Char)
  tags : List (List Char)
  createdAt : ℤ
  active : Bool

/-- The WHERE clause built by `getChunksFromDatabase`: the tenant equality is
always pushed; the optional filters only narrow further; `d.Active = 1` is
always appended.  (JS truthiness: an empty string or empty array filter
value adds no condition.) -/
def whereMatches (scope : RagScope) (r : Row) : Bool :=
  (r.companyId == scope.companyId) &&
  (match scope.documentIds with
   | none => true
   | some ids => if ids.isEmpty then true else ids.contains r.documentId) &&
  (match scope.department with
   | none => true
   | some d => if d.isEmpty then true else r.department == some d) &&
  (match scope.documentType with
   | none => true
   | some t => if t.isEmpty then true else r.documentType == some t) &&
  (match scope.dateFrom with
   | none => true
   | some f => decide (f ≤ r.createdAt)) &&
  (match scope.dateTo with
   | none => true
   | some t => decide (r.createdAt ≤ t)) &&
  r.active

/-- The `ORDER BY d.CreatedAt DESC` of the SELECT, modelled as the stable
descending sort by creation timestamp of the position-tagged row list. -/
def createdAtDescRel (x y : ℕ × Row) : Prop :=
  y.2.createdAt < x.2.createdAt ∨ (x.2.createdAt = y.2.createdAt ∧ x.1 ≤ y.1)

instance : DecidableRel createdAtDescRel := fun _ _ => by
  unfold createdAtDescRel
  infer_instance

/-- Chunk metadata as `getChunksFromDatabase` maps each row. -/
structure ChunkMeta where
  companyId : Nat
  department : Option (List Char)
  documentType : Option (List Char)
  tags : List (List Char)
  createdAt : ℤ

/-- Definition `DocumentChunk` of the SQL-path ragService. -/
structure DocumentChunk where
  chunkId : Nat
  documentId : Nat
  documentTitle : List Char
  chunkIndex : Nat
  text : List Char
  embedding : List ℝ
  metadata : ChunkMeta

/-- The row-to-record mapping of `getChunksFromDatabase` (the stored JSON
embedding string is already parsed in the row model). -/
def rowToChunk (r : Row) : DocumentChunk :=
  ⟨r.chunkId, r.documentId, r.documentTitle, r.chunkIndex, r.text, r.embedding,
    ⟨r.companyId, r.department, r.documentType, r.tags, r.createdAt⟩⟩

/-- Definition `getChunksFromDatabase(scope)` with the database rows as a parameter. -/
def getChunksFromDatabase (db : List Row) (scope : RagScope) : List DocumentChunk :=
  (((db.filter (whereMatches scope)).enum.insertionSort createdAtDescRel).map Prod.snd).map
    rowToChunk

/-- Definition `ChunkSource` of the SQL-path ragService. -/
structure ChunkSource where
  chunkId : Nat
  documentId : Nat
  documentTitle : List Char
  score : ℝ
  text : List Char
  metadata : ChunkMeta

/-- Definition `RagResult` of the SQL-path ragService. -/
structure RagResult where
  answer : List Char
  sources : List ChunkSource
  confidence : ℝ
  tokensUsed : Nat

/-- The fixed no-documents answer of `askWithRag`. -/
def fixedNoDocsAnswer : List Char :=
  "Não encontrei documentos disponíveis com os filtros aplicados. Verifique se há documentos processados para sua empresa/departamento.".toList

/-- The fixed system prompt of `askWithRag`. -/
def sqlSystemPrompt : List Char :=
  jsTrim "\nVocê é a IA assistente do WISEIA, um sistema avançado de gestão de documentos corporativos.\n\nSeu objetivo é responder perguntas com base EXCLUSIVAMENTE nos trechos de documentos fornecidos.\n\nRegras importantes:\n1. Responda SEMPRE em português, de forma clara e profissional\n2. Use APENAS informações dos trechos fornecidos\n3. Se não houver informação suficiente, diga claramente\n4. Cite o documento de origem quando relevante (ex: \"Segundo o documento X...\")\n5. Seja objetivo e conciso, mas completo\n6. Se houver contradições entre documentos, mencione\n7. Organize a resposta em tópicos quando apropriado\n".toList

/-- One context block of `askWithRag`. -/
def trechoBlock (idx : Nat) (c : DocumentChunk) : List Char :=
  "[Trecho ".toList ++ (toString (idx + 1)).toList ++ " - Documento: \"".toList
    ++ c.documentTitle ++ "\" | Departamento: ".toList
    ++ (match c.metadata.department with
        | some d => if d.isEmpty then "N/A".toList else d
        | none => "N/A".toList)
    ++ "]\n".toList ++ c.text

/-- The user prompt of `askWithRag` when `includeContext` is set. -/
def sqlUserPrompt (contextText question : List Char) : List Char :=
  jsTrim
    ("\n===== CONTEXTO (Trechos de Documentos) =====\n\n".toList
      ++ contextText
      ++ "\n\n===== PERGUNTA =====\n\n".toList
      ++ question
      ++ "\n\n===== INSTRUÇÕES =====\n\nCom base APENAS nos trechos acima, responda a pergunta de forma completa e profissional.\n".toList)

/-- Definition `askWithRag(question, scope, options)` with the database, the embedding
service (`generateEmbedding`, cache and remote call collapsed into one
deterministic function) and the chat completion (content and token usage) as
parameters.  Besides the `RagResult` the embedding returns how many
embedding calls and how many LLM calls the invocation performs; an empty
question maps to the thrown `Pergunta vazia` error. -/
noncomputable def askWithRag (embedFn : List Char → List ℝ)
    (llm : List Char → List Char → Option (List Char) × Nat)
    (db : List Row) (question : List Char) (scope : RagScope)
    (topK : ℤ := 5) (includeContext : Bool := true) :
    Except Unit (RagResult × Nat × Nat) :=
  if (jsTrim question).isEmpty then .error ()
  else
    let chunks := getChunksFromDatabase db scope
    if chunks.isEmpty then
      .ok (⟨fixedNoDocsAnswer, [], 0, 0⟩, 0, 0)
    else
      let questionEmbedding := embedFn question
      let scoredChunks := chunks.map (fun c => (c, cosineSimilarity questionEmbedding c.embedding))
      let topChunks := jsSliceTo topK ((stableSortByScoreDesc Prod.snd scoredChunks).map Prod.snd)
      let avgScore := ((topChunks.map Prod.snd).sum) / (topChunks.length : ℝ)
      let confidence := min (avgScore * 100) 100
      let contextText :=
        List.intercalate "\n\n---\n\n".toList (topChunks.enum.map (fun p => trechoBlock p.1 p.2.1))
      let userPrompt := if includeContext then sqlUserPrompt contextText question else question
      let resp := llm sqlSystemPrompt userPrompt
      let answer := resp.1.getD "Não foi possível gerar uma resposta.".toList
      let sources := topChunks.map (fun p =>
        (⟨p.1.chunkId, p.1.documentId, p.1.documentTitle, p.2,
          p.1.text.take 200 ++ "...".toList, p.1.metadata⟩ : ChunkSource))
      .ok (⟨answer, sources, confidence, resp.2⟩, 1, 1)

end RagSql

namespace AiV2

/-!
Embedding of the `/ai/v2/chat` scope assembly of `src/routes/aiV2.ts` and of
`AiCoreScope` of `src/ai/aiCoreClient.ts`.
-/

/-- The authenticated identity as the JWT places it on the request. -/
structure AuthUser where
  id : Option ℤ
  companyId : Option ℤ
  departmentId : Option ℤ
  divisionId : Option ℤ
  role : Option (List Char)
deriving DecidableEq, Repr

/-- The caller-supplied `body.filters` of `/ai/v2/chat`. -/
structure ChatFilters where
  companyId : Option ℤ
  departmentId : Option ℤ
  divisionId : Option ℤ
  ownerUserId : Option ℤ
  department : Option String
  division : Option String
  category : Option String
  tags : Option (List String)
deriving DecidableEq, Repr

/-- An empty `body.filters`. -/
def noChatFilters : ChatFilters :=
  ⟨none, none, none, none, none, none, none, none⟩

/-- Definition `AiCoreScope` of aiCoreClient.ts: the scope posted to the IA Core
service. -/
structure AiCoreScope where
  companyId : ℤ
  department : Option String
  division : Option String
  ownerUserId : Option ℤ
  documentType : Option String
  tags : Option (List String)
deriving DecidableEq, Repr

/-- The identity-merge block of `/ai/v2/chat`: the role string (uppercased)
decides which identity fields narrow the filters; only the roles `MANAGER`,
`COORDINATOR` and `USER` receive department/division/owner narrowing. -/
def mergeIdentity (u : AuthUser) (f₀ : ChatFilters) : ChatFilters :=
  let role := jsToUpper (u.role.getD [])
  let f := if u.companyId.isSome && f₀.companyId.isNone then
      { f₀ with companyId := u.companyId } else f₀
  let f := if (role == "MANAGER".toList || role == "COORDINATOR".toList
        || role == "USER".toList)
      && u.departmentId.isSome && f.departmentId.isNone then
      { f with departmentId := u.departmentId } else f
  let f := if (role == "COORDINATOR".toList || role == "USER".toList)
      && u.divisionId.isSome && f.divisionId.isNone then
      { f with divisionId := u.divisionId } else f
  let f := if role == "USER".toList && u.id.isSome && f.ownerUserId.isNone then
      { f with ownerUserId := u.id } else f
  f

/-- The scope assembly of `POST /ai/v2/chat` (src/routes/aiV2.ts lines
230–284): merge the authenticated identity into the caller's filters, then
build the `AiCoreScope`; a missing company id defaults to `1`. -/
def assembleChatScope (skipAuth : Bool) (user : Option AuthUser) (body : ChatFilters) :
    AiCoreScope :=
  let filters :=
    match skipAuth, user with
    | false, some u => mergeIdentity u body
    | _, _ => body
  { companyId := filters.companyId.getD 1
    department := filters.department.or (filters.departmentId.map toString)
    division := filters.division.or (filters.divisionId.map toString)
    ownerUserId := filters.ownerUserId
    documentType := filters.category
    tags := filters.tags }

end AiV2

namespace AuthService

/-- The `Position → role` mapping inside `login`
(src/services/authService.ts, in source file `unnamed/part_002`): a position
string is classified by substring, and any unrecognised position falls back
to the `user` role. -/
def mapPositionToRole (position : List Char) : String :=
  let p := jsToLower position
  if jsIncludes p "superuser".toList || jsIncludes p "super".toList then "superuser"
  else if jsIncludes p "master".toList then "master"
  else if jsIncludes p "manager".toList || jsIncludes p "gerente".toList then "manager"
  else if jsIncludes p "coordinator".toList || jsIncludes p "coordenador".toList then "coordinator"
  else "user"

end AuthService

namespace Chunker2

/-- Cost of a paragraph list: each part's length plus the two separator
characters it accounts for. -/
def paraSum (ps : List (List Char)) : Nat :=
  (ps.map (fun p => p.length + 2)).sum

/-- The trimmed cost of a paragraph list as the main loop accumulates it. -/
def sumTr (ps : List (List Char)) : Nat :=
  (ps.map (fun p => (jsTrim p).length + 2)).sum

/-- What the main loop appends to the running buffer when it never emits. -/
def parasConcat (ps : List (List Char)) : List Char :=
  (ps.map (fun p => jsTrim p ++ ['\n', '\n'])).flatten

end Chunker2

/-- Concatenation of a chunk sequence with the leading `overlap` characters
of every non-initial chunk removed (the reconstruction reading of the
spec). -/
def reconstructOverlap (overlap : Nat) : List (List Char) → List Char
| [] => []
| t :: ts => t ++ (ts.map (List.drop overlap)).flatten

/-- The document used in the C6 scenario. -/
def c6Doc : RagV2.DocumentRecord := ⟨"d", none, none, none, none⟩

/-- First-generation chunk 0 of document `d`. -/
def c6OldChunk0 : RagV2.ChunkRecord := ⟨"d_c0", "d", 0, ['o'], none⟩

/-- First-generation chunk 1 of document `d`. -/
def c6OldChunk1 : RagV2.ChunkRecord := ⟨"d_c1", "d", 1, ['l'], none⟩

/-- Second-generation chunk 0 of document `d` (the new generation has only
one chunk). -/
def c6NewChunk0 : RagV2.ChunkRecord := ⟨"d_c0", "d", 0, ['n'], none⟩

/-- A corpus holding the first generation of document `d`. -/
def c6Corpus : RagV2.CorpusData :=
  ⟨[("d", c6Doc)], [("d_c0", c6OldChunk0), ("d_c1", c6OldChunk1)], 1, 2⟩

/-- The superuser identity of the C2 scenario (platform operator of tenant
7). -/
def c2SuperIdentity : AiV2.AuthUser :=
  ⟨some 9, some 7, some 3, some 2, some "superuser".toList⟩

/-- A stored, active chunk row of tenant 7. -/
def c2DemoRow : RagSql.Row :=
  ⟨1, 1, "contrato".toList, 0, "texto".toList, [], 7, none, none, [], 0, true⟩

/-- An identity whose role string is not recognised by the chat scope
assembly. -/
def c3UnknownIdentity : AiV2.AuthUser :=
  ⟨some 9, some 7, some 3, some 2, some "auditor".toList⟩

/-- The same identity with the regular `user` role. -/
def c3UserIdentity : AiV2.AuthUser :=
  ⟨some 9, some 7, some 3, some 2, some "user".toList⟩

/-- The same identity with the `master` role. -/
def c3MasterIdentity : AiV2.AuthUser :=
  ⟨some 9, some 7, some 3, some 2, some "master".toList⟩

/-- A stored, active chunk row of tenant 1. -/
def c1Row1 : RagSql.Row :=
  ⟨1, 1, "a".toList, 0, "ta".toList, [], 1, none, none, [], 0, true⟩

/-- A stored, active chunk row of tenant 2. -/
def c1Row2 : RagSql.Row :=
  ⟨2, 2, "b".toList, 0, "tb".toList, [], 2, none, none, [], 0, true⟩

/-- A document of tenant 1 in the JSON corpus. -/
def c1DocT1 : RagV2.DocumentRecord :=
  ⟨"d1", none, none, none, some ⟨none, some 1, none, none, [], none⟩⟩

/-- A document of tenant 2 in the JSON corpus. -/
def c1DocT2 : RagV2.DocumentRecord :=
  ⟨"d2", none, none, none, some ⟨none, some 2, none, none, [], none⟩⟩

/-- A JSON corpus seeded across two tenants. -/
def c1Corpus : RagV2.CorpusData :=
  ⟨[("d1", c1DocT1), ("d2", c1DocT2)],
    [("c1", ⟨"c1", "d1", 0, "x".toList, none⟩), ("c2", ⟨"c2", "d2", 0, "y".toList, none⟩)],
    2, 2⟩

/-- Tenant-1 search filters. -/
def c1Filters : RagV2.SearchFilters := ⟨some 1, none, none, none, none, none⟩

section Helpers

theorem ltrim_sublist (l : List Char) : List.Sublist (ltrim l) l :=
  List.dropWhile_sublist _

theorem rtrim_sublist (l : List Char) : List.Sublist (rtrim l) l := by
  have h := List.dropWhile_sublist (l := l.reverse) (p := isWS)
  simpa [rtrim] using h.reverse

theorem jsTrim_sublist (l : List Char) : List.Sublist (jsTrim l) l :=
  (rtrim_sublist _).trans (ltrim_sublist l)

theorem length_jsTrim_le (l : List Char) : (jsTrim l).length ≤ l.length :=
  (jsTrim_sublist l).length_le

theorem mem_ltrim_of_not_ws {c : Char} {l : List Char} (hc : c ∈ l) (hws : isWS c = false) :
    c ∈ ltrim l := by
  have hsplit := List.takeWhile_append_dropWhile (p := isWS) (l := l)
  rw [← hsplit] at hc
  rcases List.mem_append.mp hc with h | h
  · exact absurd (List.mem_takeWhile_imp h) (by simp [hws])
  · exact h

theorem mem_rtrim_of_not_ws {c : Char} {l : List Char} (hc : c ∈ l) (hws : isWS c = false) :
    c ∈ rtrim l := by
  have : c ∈ l.reverse.dropWhile isWS :=
    mem_ltrim_of_not_ws (List.mem_reverse.mpr hc) hws
  simpa [rtrim] using List.mem_reverse.mpr this

theorem mem_jsTrim_of_not_ws {c : Char} {l : List Char} (hc : c ∈ l) (hws : isWS c = false) :
    c ∈ jsTrim l :=
  mem_rtrim_of_not_ws (mem_ltrim_of_not_ws hc hws) hws

theorem jsTrim_eq_nil_of_all_ws {l : List Char} (h : ∀ c ∈ l, isWS c = true) :
    jsTrim l = [] := by
  have h1 : ltrim l = [] := List.dropWhile_eq_nil_iff.mpr h
  rw [jsTrim, h1]
  rfl

theorem jsTrim_ne_nil_of_mem {c : Char} {l : List Char} (hc : c ∈ l) (hws : isWS c = false) :
    jsTrim l ≠ [] :=
  List.ne_nil_of_mem (mem_jsTrim_of_not_ws hc hws)

theorem exists_not_ws_of_jsTrim_ne_nil {l : List Char} (h : jsTrim l ≠ []) :
    ∃ c ∈ l, isWS c = false := by
  by_contra hall
  push_neg at hall
  exact h (jsTrim_eq_nil_of_all_ws (fun c hc => by
    have := hall c hc
    simpa using this))

theorem ltrim_eq_self_of_no_ws {l : List Char} (h : ∀ c ∈ l, isWS c = false) :
    ltrim l = l := by
  cases l with
  | nil => rfl
  | cons c rest =>
      simp [ltrim, List.dropWhile_cons, h c (List.mem_cons_self c rest)]

theorem jsTrim_eq_self_of_no_ws {l : List Char} (h : ∀ c ∈ l, isWS c = false) :
    jsTrim l = l := by
  have h1 : ltrim l = l := ltrim_eq_self_of_no_ws h
  have h2 : l.reverse.dropWhile isWS = l.reverse :=
    ltrim_eq_self_of_no_ws (fun c hc => h c (List.mem_reverse.mp hc))
  simp [jsTrim, h1, rtrim, h2]

end Helpers

namespace Chunker2

/-- Splitting never creates content: the parts plus two separator characters
per part stay within the input length plus a slack of two. -/
theorem splitParasGo_paraSum :
    ∀ (cs acc : List Char) (nl : Nat),
      paraSum (splitParasGo cs acc nl) ≤ cs.length + acc.length + nl + 2 := by
  intro cs
  induction cs with
  | nil =>
      intro acc nl
      by_cases h : 2 ≤ nl
      · simp [splitParasGo, h, paraSum]
      · simp [splitParasGo, h, paraSum]
  | cons c rest ih =>
      intro acc nl
      by_cases hc : c = '\n'
      · have := ih acc (nl + 1)
        simp only [splitParasGo, if_pos hc]
        simp only [List.length_cons]
        omega
      · by_cases h2 : 2 ≤ nl
        · have := ih [c] 0
          simp only [splitParasGo, if_neg hc, if_pos h2]
          simp [paraSum] at this ⊢
          omega
        · have := ih (c :: (List.replicate nl '\n' ++ acc)) 0
          simp only [splitParasGo, if_neg hc, if_neg h2]
          simp only [List.length_cons, List.length_append, List.length_replicate] at this ⊢
          omega

/-- If every produced paragraph is all-whitespace then the input (and the
pending accumulator) is all-whitespace. -/
theorem splitParasGo_all_ws :
    ∀ (cs acc : List Char) (nl : Nat),
      (∀ p ∈ splitParasGo cs acc nl, ∀ c ∈ p, isWS c = true) →
      (∀ c ∈ cs, isWS c = true) ∧ (∀ c ∈ acc, isWS c = true) := by
  intro cs
  induction cs with
  | nil =>
      intro acc nl h
      refine ⟨by simp, ?_⟩
      by_cases h2 : 2 ≤ nl
      · simp only [splitParasGo, if_pos h2] at h
        intro c hc
        exact h acc.reverse (by simp) c (List.mem_reverse.mpr hc)
      · simp only [splitParasGo, if_neg h2] at h
        intro c hc
        have hp := h ((List.replicate nl '\n' ++ acc).reverse) (List.mem_singleton.mpr rfl)
        exact hp c (by
          rw [List.mem_reverse]
          exact List.mem_append.mpr (Or.inr hc))
  | cons c rest ih =>
      intro acc nl h
      by_cases hc : c = '\n'
      · simp only [splitParasGo, if_pos hc] at h
        obtain ⟨hr, ha⟩ := ih acc (nl + 1) h
        exact ⟨fun d hd => by
          rcases List.mem_cons.mp hd with rfl | hd
          · simp [hc, isWS]
          · exact hr d hd, ha⟩
      · by_cases h2 : 2 ≤ nl
        · simp only [splitParasGo, if_neg hc, if_pos h2] at h
          obtain ⟨hr, hsing⟩ := ih [c] 0 (fun p hp => h p (List.mem_cons.mpr (Or.inr hp)))
          refine ⟨fun d hd => ?_, fun d hd => ?_⟩
          · rcases List.mem_cons.mp hd with rfl | hd
            · exact hsing d (by simp)
            · exact hr d hd
          · exact h acc.reverse (by simp) d (List.mem_reverse.mpr hd)
        · simp only [splitParasGo, if_neg hc, if_neg h2] at h
          obtain ⟨hr, hmix⟩ := ih (c :: (List.replicate nl '\n' ++ acc)) 0 h
          refine ⟨fun d hd => ?_, fun d hd => ?_⟩
          · rcases List.mem_cons.mp hd with rfl | hd
            · exact hmix d (by simp)
            · exact hr d hd
          · exact hmix d (by
              exact List.mem_cons.mpr (Or.inr (List.mem_append.mpr (Or.inr hd))))

/-- A member part contributes its cost to the total. -/
theorem mem_cost_le_paraSum :
    ∀ (ps : List (List Char)) (p : List Char), p ∈ ps → p.length + 2 ≤ paraSum ps := by
  intro ps
  induction ps with
  | nil => intro p hp; cases hp
  | cons q rest ih =>
      intro p hp
      rcases List.mem_cons.mp hp with rfl | hp2
      · simp [paraSum]
      · have := ih p hp2
        simp [paraSum] at this ⊢
        omega

/-- Each part of the split is no longer than the input. -/
theorem mem_splitParas_length_le {cs p : List Char} (hp : p ∈ splitParas cs) :
    p.length ≤ cs.length := by
  have hsum := splitParasGo_paraSum cs [] 0
  have hmem := mem_cost_le_paraSum (splitParas cs) p hp
  simp only [splitParas] at hmem
  simp at hsum
  omega

end Chunker2

namespace Chunker2

theorem sumTr_le_paraSum (ps : List (List Char)) : sumTr ps ≤ paraSum ps := by
  induction ps with
  | nil => simp [sumTr, paraSum]
  | cons p rest ih =>
      have := length_jsTrim_le p
      simp [sumTr, paraSum] at ih ⊢
      omega

theorem paraSum_filter_le (f : List Char → Bool) (ps : List (List Char)) :
    paraSum (ps.filter f) ≤ paraSum ps := by
  induction ps with
  | nil => simp [paraSum]
  | cons p rest ih =>
      by_cases h : f p
      · simp only [paraSum, List.filter_cons, h, if_true, List.map_cons, List.sum_cons]
        simp only [paraSum] at ih
        omega
      · simp only [paraSum, List.filter_cons, h, Bool.false_eq_true, if_false, List.map_cons,
          List.sum_cons]
        simp only [paraSum] at ih
        omega

/-- As long as the running buffer plus the remaining trimmed cost fits inside
`targetSize + 2`, the main loop never emits: it only accumulates the trimmed
paragraphs with their separators. -/
theorem chunkFold_no_emit (targetSize overlap : Nat) :
    ∀ (ps : List (List Char)) (cur : List Char),
      cur.length + sumTr ps ≤ targetSize + 2 →
      (∀ p ∈ ps, 2 * (jsTrim p).length ≤ 3 * targetSize) →
      ps.foldl (chunkStep targetSize overlap) ⟨[], cur, 0, []⟩ =
        ⟨[], cur ++ parasConcat ps, 0, []⟩ := by
  intro ps
  induction ps with
  | nil =>
      intro cur _ _
      simp [parasConcat]
  | cons p rest ih =>
      intro cur hsum hb2
      have hcost : (jsTrim p).length + 2 + sumTr rest = sumTr (p :: rest) := by
        simp [sumTr]
        try omega
      have hfit : cur.length + (jsTrim p).length ≤ targetSize := by
        simp [sumTr] at hsum
        omega
      have hstep : chunkStep targetSize overlap ⟨[], cur, 0, []⟩ p =
          ⟨[], cur ++ (jsTrim p ++ ['\n', '\n']), 0, []⟩ := by
        have hc1 : ¬(0 < cur.length ∧ targetSize < cur.length + (jsTrim p).length) := by
          intro ⟨_, hgt⟩
          omega
        have hc2 : ¬(3 * targetSize < 2 * (jsTrim p).length) := by
          have := hb2 p (List.mem_cons_self p rest)
          omega
        simp only [chunkStep, if_neg hc1, if_neg hc2]
        simp [List.append_assoc]
      rw [List.foldl_cons, hstep]
      have hsum2 : (cur ++ (jsTrim p ++ ['\n', '\n'])).length + sumTr rest ≤ targetSize + 2 := by
        simp [sumTr] at hsum ⊢
        omega
      rw [ih _ hsum2 (fun q hq => hb2 q (List.mem_cons.mpr (Or.inr hq)))]
      simp [parasConcat]

end Chunker2

theorem length_replaceCRLF_le : ∀ l : List Char, (replaceCRLF l).length ≤ l.length
| [] => by simp [replaceCRLF]
| [c] => by simp [replaceCRLF]
| c :: d :: rest => by
    by_cases h : c = '\r' ∧ d = '\n'
    · have := length_replaceCRLF_le rest
      simp only [replaceCRLF, if_pos h, List.length_cons]
      omega
    · have := length_replaceCRLF_le (d :: rest)
      simp only [replaceCRLF, if_neg h, List.length_cons] at this ⊢
      omega

theorem mem_replaceCRLF_of_ne : ∀ (l : List Char) (c : Char),
    c ∈ l → c ≠ '\r' → c ∈ replaceCRLF l
| [], c, h, _ => absurd h (List.not_mem_nil c)
| [a], c, h, _ => by simpa [replaceCRLF] using h
| a :: b :: rest, c, h, hne => by
    by_cases hab : a = '\r' ∧ b = '\n'
    · simp only [replaceCRLF, if_pos hab]
      rcases List.mem_cons.mp h with rfl | h2
      · exact absurd hab.1 hne
      · rcases List.mem_cons.mp h2 with rfl | h3
        · exact hab.2 ▸ List.mem_cons_self _ _
        · exact List.mem_cons.mpr (Or.inr (mem_replaceCRLF_of_ne rest c h3 hne))
    · simp only [replaceCRLF, if_neg hab]
      rcases List.mem_cons.mp h with rfl | h2
      · exact List.mem_cons_self _ _
      · exact List.mem_cons.mpr (Or.inr (mem_replaceCRLF_of_ne (b :: rest) c h2 hne))

theorem mem_of_mem_replaceCRLF : ∀ (l : List Char) (c : Char),
    c ∈ replaceCRLF l → c ∈ l ∨ c = '\n'
| [], c, h => by simp [replaceCRLF] at h
| [a], c, h => by
    simp [replaceCRLF] at h
    exact Or.inl (by simp [h])
| a :: b :: rest, c, h => by
    by_cases hab : a = '\r' ∧ b = '\n'
    · simp only [replaceCRLF, if_pos hab] at h
      rcases List.mem_cons.mp h with rfl | h2
      · exact Or.inr rfl
      · rcases mem_of_mem_replaceCRLF rest c h2 with h3 | h3
        · exact Or.inl (by simp [h3])
        · exact Or.inr h3
    · simp only [replaceCRLF, if_neg hab] at h
      rcases List.mem_cons.mp h with rfl | h2
      · exact Or.inl (List.mem_cons_self _ _)
      · rcases mem_of_mem_replaceCRLF (b :: rest) c h2 with h3 | h3
        · exact Or.inl (List.mem_cons.mpr (Or.inr h3))
        · exact Or.inr h3

theorem chunkText2_all_ws {text : List Char} (ts ov : Nat)
    (h : ∀ c ∈ text, isWS c = true) : Chunker2.chunkText text ts ov = [] := by
  simp [Chunker2.chunkText, jsTrim_eq_nil_of_all_ws h]

theorem chunkText2_single {text : List Char} {ts : Nat} (ov : Nat)
    (hnz : ∃ c ∈ text, isWS c = false) (hlen : text.length < ts) :
    (Chunker2.chunkText text ts ov).length = 1 := by
  obtain ⟨c, hc, hcws⟩ := hnz
  have htrim : jsTrim text ≠ [] := jsTrim_ne_nil_of_mem hc hcws
  have htrim2 : (jsTrim text).isEmpty = false := by
    simpa [List.isEmpty_iff] using htrim
  rw [Chunker2.chunkText]
  rw [if_neg (by simp [htrim2])]
  have hsum : (Chunker2.sumTr ((Chunker2.splitParas text).filter
      (fun p => !(jsTrim p).isEmpty))) ≤ ts + 2 := by
    have h1 := Chunker2.sumTr_le_paraSum ((Chunker2.splitParas text).filter
      (fun p => !(jsTrim p).isEmpty))
    have h2 := Chunker2.paraSum_filter_le (fun p => !(jsTrim p).isEmpty)
      (Chunker2.splitParas text)
    have h3 := Chunker2.splitParasGo_paraSum text [] 0
    simp only [Chunker2.splitParas] at h1 h2 ⊢
    simp at h3
    omega
  have hb2 : ∀ p ∈ (Chunker2.splitParas text).filter (fun p => !(jsTrim p).isEmpty),
      2 * (jsTrim p).length ≤ 3 * ts := by
    intro p hp
    have hmem := List.mem_of_mem_filter hp
    have h4 := Chunker2.mem_splitParas_length_le hmem
    have h5 := length_jsTrim_le p
    omega
  dsimp only
  rw [Chunker2.chunkFold_no_emit ts ov _ [] (by simpa using hsum) hb2]
  have hpart : ∃ p ∈ Chunker2.splitParas text, ∃ d ∈ p, isWS d = false := by
    by_contra hall
    push_neg at hall
    have := Chunker2.splitParasGo_all_ws text [] 0 (fun p hp d hd => by
      have := hall p hp d hd
      simpa using this)
    have := this.1 c hc
    rw [hcws] at this
    cases this
  obtain ⟨p, hpmem, d, hdmem, hdws⟩ := hpart
  have hpfilter : p ∈ (Chunker2.splitParas text).filter (fun q => !(jsTrim q).isEmpty) := by
    refine List.mem_filter.mpr ⟨hpmem, ?_⟩
    have : jsTrim p ≠ [] := jsTrim_ne_nil_of_mem hdmem hdws
    simpa [List.isEmpty_iff] using this
  have hdconc : d ∈ Chunker2.parasConcat ((Chunker2.splitParas text).filter
      (fun q => !(jsTrim q).isEmpty)) := by
    unfold Chunker2.parasConcat
    rw [List.mem_flatten]
    refine ⟨jsTrim p ++ ['\n', '\n'], List.mem_map.mpr ⟨p, hpfilter, rfl⟩, ?_⟩
    exact List.mem_append.mpr (Or.inl (mem_jsTrim_of_not_ws hdmem hdws))
  have hconc : jsTrim (Chunker2.parasConcat ((Chunker2.splitParas text).filter
      (fun q => !(jsTrim q).isEmpty))) ≠ [] := jsTrim_ne_nil_of_mem hdconc hdws
  rw [if_pos (by simpa [List.isEmpty_iff] using hconc)]
  simp

theorem normalizeText_all_ws {text : List Char} (h : ∀ c ∈ text, isWS c = true) :
    Ingest.normalizeText text = [] := by
  apply jsTrim_eq_nil_of_all_ws
  intro c hc
  rcases List.mem_map.mp hc with ⟨d, hd, hdc⟩
  rcases mem_of_mem_replaceCRLF text d hd with hdt | hdn
  · have hdw := h d hdt
    by_cases ht : d = '\t'
    · simp [ht] at hdc
      simp [← hdc, isWS]
    · simp [ht] at hdc
      simpa [← hdc] using hdw
  · by_cases ht : d = '\t'
    · simp [ht] at hdc
      simp [← hdc, isWS]
    · simp [ht] at hdc
      simp [← hdc, hdn, isWS]

theorem createChunks_all_ws {text : List Char} (ts ov : Nat)
    (h : ∀ c ∈ text, isWS c = true) : Ingest.createChunks text ts ov = [] := by
  rw [Ingest.createChunks]
  rw [normalizeText_all_ws h]
  simp [Ingest.createChunksLoop]

theorem length_normalizeText_le (text : List Char) :
    (Ingest.normalizeText text).length ≤ text.length := by
  have h1 := length_jsTrim_le ((replaceCRLF text).map (fun c => if c = '\t' then ' ' else c))
  have h2 := length_replaceCRLF_le text
  simp only [Ingest.normalizeText]
  simp only [List.length_map] at h1
  omega

theorem mem_normalizeText {text : List Char} {c : Char}
    (hc : c ∈ text) (hcws : isWS c = false) : c ∈ Ingest.normalizeText text := by
  have hcr : c ≠ '\r' := by
    intro h
    rw [h] at hcws
    simp [isWS] at hcws
  have h1 : c ∈ replaceCRLF text := mem_replaceCRLF_of_ne text c hc hcr
  have hct : c ≠ '\t' := by
    intro h
    rw [h] at hcws
    simp [isWS] at hcws
  have h2 : c ∈ (replaceCRLF text).map (fun d => if d = '\t' then ' ' else d) := by
    refine List.mem_map.mpr ⟨c, h1, ?_⟩
    simp [hct]
  exact mem_jsTrim_of_not_ws h2 hcws

theorem createChunks_single {text : List Char} {ts : Nat} (ov : Nat)
    (hnz : ∃ c ∈ text, isWS c = false) (hlen : text.length < ts) :
    (Ingest.createChunks text ts ov).length = 1 := by
  obtain ⟨c, hc, hcws⟩ := hnz
  have hmem : c ∈ Ingest.normalizeText text := mem_normalizeText hc hcws
  have hne : Ingest.normalizeText text ≠ [] := List.ne_nil_of_mem hmem
  have hpos : 0 < (Ingest.normalizeText text).length := List.length_pos.mpr hne
  have hle : (Ingest.normalizeText text).length < ts :=
    lt_of_le_of_lt (length_normalizeText_le text) hlen
  rw [Ingest.createChunks]
  rw [Ingest.createChunksLoop]
  rw [if_pos hpos]
  have hmin : min (Ingest.normalizeText text).length (0 + ts) =
      (Ingest.normalizeText text).length := by
    omega
  have hjs : (jsTrim (Ingest.normalizeText text)).isEmpty = false := by
    have : jsTrim (Ingest.normalizeText text) ≠ [] := jsTrim_ne_nil_of_mem hmem hcws
    simpa [List.isEmpty_iff] using this
  have htr : jsTrim (Ingest.normalizeText text) ≠ [] := jsTrim_ne_nil_of_mem hmem hcws
  simp [hmin, hjs, Nat.min_eq_left hle.le, htr, hle.le]

/-- C9: given `targetSize > overlap ≥ 0`, an empty or whitespace-only input
yields the empty chunk sequence (not an error), and a non-whitespace text
shorter than `targetSize` yields exactly one chunk, in both `chunkText`
(textChunker.ts) and `createChunks` (documents.ingest.service.ts). -/
theorem c9_chunk_edge_cases (text : List Char) (targetSize overlap : Nat)
    (_hpre : overlap < targetSize) :
    ((∀ c ∈ text, isWS c = true) →
      Chunker2.chunkText text targetSize overlap = [] ∧
      Ingest.createChunks text targetSize overlap = []) ∧
    ((∃ c ∈ text, isWS c = false) → text.length < targetSize →
      (Chunker2.chunkText text targetSize overlap).length = 1 ∧
      (Ingest.createChunks text targetSize overlap).length = 1) := by
  constructor
  · intro h
    exact ⟨chunkText2_all_ws targetSize overlap h, createChunks_all_ws targetSize overlap h⟩
  · intro hnz hlen
    exact ⟨chunkText2_single overlap hnz hlen, createChunks_single overlap hnz hlen⟩

/-- Witness for C9 at the concrete inputs `"hi"` (non-whitespace, short) and
`""` (empty), with the default `targetSize = 800`, `overlap = 100`. -/
theorem c9_chunk_edge_cases_witness :
    100 < 800 ∧ (∃ c ∈ "hi".toList, isWS c = false) ∧ "hi".toList.length < 800 ∧
    (Chunker2.chunkText "hi".toList 800 100).length = 1 ∧
    (Ingest.createChunks "hi".toList 800 100).length = 1 ∧
    Chunker2.chunkText [] 800 100 = [] ∧ Ingest.createChunks [] 800 100 = [] := by
  have hex : ∃ c ∈ "hi".toList, isWS c = false := ⟨'h', by decide, by decide⟩
  have h1 := (c9_chunk_edge_cases "hi".toList 800 100 (by decide)).2 hex (by decide)
  have h2 := (c9_chunk_edge_cases [] 800 100 (by decide)).1 (by simp)
  exact ⟨by decide, hex, by decide, h1.1, h1.2, h2.1, h2.2⟩

theorem take_drop_append (l : List α) (m k : Nat) :
    (l.drop m).take k ++ l.drop (m + k) = l.drop m := by
  conv_rhs => rw [← List.take_append_drop k (l.drop m)]
  congr 1
  rw [List.drop_drop]

theorem chunkLoopDrops (clean : List Char) (size ov : Nat)
    (hws : ∀ c ∈ clean, isWS c = false) (hov : ov < size) :
    ∀ (fuel start : Nat), start < clean.length → clean.length - start ≤ fuel →
      ((RagV2.chunkLoop clean size ov fuel start).map (List.drop ov)).flatten =
        clean.drop (start + ov) := by
  intro fuel
  induction fuel with
  | zero =>
      intro start h1 h2
      exact absurd h1 (by omega)
  | succ fuel ih =>
      intro start h1 h2
      have hpiece : jsTrim ((clean.drop start).take (min (start + size) clean.length - start)) =
          (clean.drop start).take (min (start + size) clean.length - start) := by
        apply jsTrim_eq_self_of_no_ws
        intro c hc
        exact hws c (List.mem_of_mem_drop (List.mem_of_mem_take hc))
      have hlenpiece : ((clean.drop start).take (min (start + size) clean.length - start)).length =
          min (start + size) clean.length - start := by
        rw [List.length_take, List.length_drop]
        omega
      have hne : ((clean.drop start).take (min (start + size) clean.length - start)).isEmpty
          = false := by
        rw [List.isEmpty_eq_false_iff_exists_mem]
        rcases List.exists_mem_of_length_pos (by omega : 0 <
          ((clean.drop start).take (min (start + size) clean.length - start)).length) with ⟨a, ha⟩
        exact ⟨a, ha⟩
      simp only [RagV2.chunkLoop, if_pos h1, hpiece, hne, Bool.false_eq_true, if_false]
      by_cases hend : min (start + size) clean.length = clean.length
      · rw [if_pos hend, hend]
        have htk : (clean.drop start).take (clean.length - start) = clean.drop start := by
          rw [← List.length_drop]
          exact List.take_length _
        rw [htk]
        simp [List.drop_drop, Nat.add_comm]
      · rw [if_neg hend]
        have hmin : min (start + size) clean.length = start + size := by omega
        have hlt : start + size < clean.length := by omega
        have hih := ih (start + size - ov) (by omega) (by omega)
        have hstart2 : start + size - ov + ov = start + size := by omega
        rw [hstart2] at hih
        simp only [List.map_cons, List.map_append, List.flatten_append, List.flatten_cons,
          List.flatten_nil, List.append_nil, List.map_nil]
        rw [hmin, hih]
        have hdt : List.drop ov ((clean.drop start).take (start + size - start)) =
            (clean.drop (start + ov)).take (size - ov) := by
          rw [List.drop_take, List.drop_drop]
          have e1 : start + size - start - ov = size - ov := by omega
          have e2 : ov + start = start + ov := by omega
          simp only [e1, e2]
        rw [hdt]
        have hfin := take_drop_append clean (start + ov) (size - ov)
        rw [show start + ov + (size - ov) = start + size by omega] at hfin
        exact hfin

theorem chunkLoopReconstruct (clean : List Char) (size ov : Nat)
    (hws : ∀ c ∈ clean, isWS c = false) (hov : ov < size)
    (fuel start : Nat) (h1 : start < clean.length) (h2 : clean.length - start ≤ fuel + 1) :
    reconstructOverlap ov (RagV2.chunkLoop clean size ov (fuel + 1) start) =
      clean.drop start := by
  have hpiece : jsTrim ((clean.drop start).take (min (start + size) clean.length - start)) =
      (clean.drop start).take (min (start + size) clean.length - start) := by
    apply jsTrim_eq_self_of_no_ws
    intro c hc
    exact hws c (List.mem_of_mem_drop (List.mem_of_mem_take hc))
  have hlenpiece : ((clean.drop start).take (min (start + size) clean.length - start)).length =
      min (start + size) clean.length - start := by
    rw [List.length_take, List.length_drop]
    omega
  have hne : ((clean.drop start).take (min (start + size) clean.length - start)).isEmpty
      = false := by
    rw [List.isEmpty_eq_false_iff_exists_mem]
    rcases List.exists_mem_of_length_pos (by omega : 0 <
      ((clean.drop start).take (min (start + size) clean.length - start)).length) with ⟨a, ha⟩
    exact ⟨a, ha⟩
  simp only [RagV2.chunkLoop, if_pos h1, hpiece, hne, Bool.false_eq_true, if_false]
  by_cases hend : min (start + size) clean.length = clean.length
  · rw [if_pos hend, hend]
    have htk : (clean.drop start).take (clean.length - start) = clean.drop start := by
      rw [← List.length_drop]
      exact List.take_length _
    rw [htk]
    simp [reconstructOverlap]
  · rw [if_neg hend]
    have hmin : min (start + size) clean.length = start + size := by omega
    have hlt : start + size < clean.length := by omega
    have hdrops := chunkLoopDrops clean size ov hws hov fuel (start + size - ov)
      (by omega) (by omega)
    have hstart2 : start + size - ov + ov = start + size := by omega
    rw [hstart2] at hdrops
    simp only [reconstructOverlap, List.singleton_append, hmin]
    rw [hdrops]
    have hpl : (clean.drop start).take (start + size - start) = (clean.drop start).take size := by
      congr 1
      omega
    rw [hpl]
    have hfin := take_drop_append clean start size
    exact hfin

theorem replaceCRLF_eq_self : ∀ l : List Char, (∀ c ∈ l, c ≠ '\r') → replaceCRLF l = l
| [], _ => rfl
| [c], _ => rfl
| a :: b :: rest, h => by
    have hab : ¬(a = '\r' ∧ b = '\n') := by
      intro ⟨ha, _⟩
      exact h a (List.mem_cons_self _ _) ha
    simp only [replaceCRLF, if_neg hab]
    rw [replaceCRLF_eq_self (b :: rest) (fun c hc => h c (List.mem_cons.mpr (Or.inr hc)))]

/-- C8 counterexample: the textChunker.ts chunker at its default parameters
turns `"a\n\n\nb"` into the single chunk `"a\n\nb"`: the blank-line run is
collapsed, so no removal of overlap prefixes can reconstruct the original
text (with one chunk the concatenation is the chunk text itself). -/
theorem c8_counterexample :
    (Chunker2.chunkText "a\n\n\nb".toList 800 100).map Chunker2.Chunk.text =
      ["a\n\nb".toList] ∧
    "a\n\nb".toList ≠ "a\n\n\nb".toList := by
  constructor
  · decide
  · decide

/-- C8 amended: `chunkText(text) == chunkText(text)` holds since both
chunkers are pure functions of their input; exact reconstruction fails in
general because chunks are trimmed and separators normalised
(`c8_counterexample`), but on whitespace-free input (untouched by trimming
and CRLF normalisation) concatenating part_007's chunks with the leading
`overlap` characters of every non-initial chunk removed reconstructs the
input exactly, given `overlap < chunkSize`. -/
theorem c8_amended_reconstruction (text : List Char) (chunkSize overlap : Nat)
    (hov : overlap < chunkSize) (hws : ∀ c ∈ text, isWS c = false) :
    reconstructOverlap overlap (RagV2.chunkText text chunkSize overlap) = text := by
  by_cases hnil : text.isEmpty
  · have : text = [] := by simpa [List.isEmpty_iff] using hnil
    subst this
    simp [RagV2.chunkText, reconstructOverlap]
  · have hne : text ≠ [] := by simpa [List.isEmpty_iff] using hnil
    have hcr : replaceCRLF text = text := replaceCRLF_eq_self text (fun c hc hctr => by
      have := hws c hc
      rw [hctr] at this
      simp [isWS] at this)
    have hlen : 0 < text.length := List.length_pos.mpr hne
    simp only [RagV2.chunkText, hnil, Bool.false_eq_true, if_false, hcr]
    have := chunkLoopReconstruct text chunkSize overlap hws hov text.length 0
      hlen (by omega)
    simpa using this

/-- Witness for the amended C8 at `"abcd"`, `chunkSize = 2`, `overlap = 1`
(chunks `"ab"`, `"bc"`, `"cd"`). -/
theorem c8_amended_reconstruction_witness :
    1 < 2 ∧ (∀ c ∈ "abcd".toList, isWS c = false) ∧
    reconstructOverlap 1 (RagV2.chunkText "abcd".toList 2 1) = "abcd".toList :=
  ⟨by decide, by decide, c8_amended_reconstruction "abcd".toList 2 1 (by decide) (by decide)⟩

theorem jsObjGet_jsObjSet_self (k : String) (v : α) :
    ∀ l : List (String × α), jsObjGet k (jsObjSet k v l) = some v := by
  intro l
  induction l with
  | nil => simp [jsObjGet, jsObjSet]
  | cons p rest ih =>
      by_cases h : p.1 = k
      · simp [jsObjSet, h, jsObjGet]
      · simp only [jsObjSet, if_neg h]
        have hb : (p.1 == k) = false := beq_eq_false_iff_ne.mpr h
        simpa [jsObjGet, List.find?, hb] using ih

theorem jsObjGet_jsObjSet_ne (k k' : String) (v : α) (hne : k' ≠ k) :
    ∀ l : List (String × α), jsObjGet k' (jsObjSet k v l) = jsObjGet k' l := by
  intro l
  have hb : ∀ s : String, s = k → (s == k') = false := fun s hs =>
    beq_eq_false_iff_ne.mpr (hs ▸ Ne.symm hne)
  induction l with
  | nil => simp [jsObjGet, jsObjSet, List.find?, hb k rfl]
  | cons p rest ih =>
      by_cases h : p.1 = k
      · subst h
        simp [jsObjSet, jsObjGet, List.find?, hb p.1 rfl]
      · simp only [jsObjSet, if_neg h]
        by_cases h2 : p.1 = k'
        · simp [jsObjGet, List.find?, h2]
        · simp only [jsObjGet, List.find?] at ih ⊢
          have hb2 : (p.1 == k') = false := by simpa using h2
          rw [hb2]
          simpa [jsObjGet] using ih

theorem foldl_jsObjSet_not_mem (chunks : List RagV2.ChunkRecord) (k : String)
    (hk : k ∉ chunks.map RagV2.ChunkRecord.chunkId) :
    ∀ m : List (String × RagV2.ChunkRecord),
      jsObjGet k (chunks.foldl (fun m c => jsObjSet c.chunkId c m) m) = jsObjGet k m := by
  induction chunks with
  | nil => intro m; rfl
  | cons c rest ih =>
      intro m
      simp only [List.map_cons, List.mem_cons] at hk
      push_neg at hk
      rw [List.foldl_cons, ih hk.2, jsObjGet_jsObjSet_ne _ _ _ hk.1]

theorem foldl_jsObjSet_mem (chunks : List RagV2.ChunkRecord)
    (hnodup : (chunks.map RagV2.ChunkRecord.chunkId).Nodup) :
    ∀ (c : RagV2.ChunkRecord), c ∈ chunks →
      ∀ m : List (String × RagV2.ChunkRecord),
        jsObjGet c.chunkId (chunks.foldl (fun m c => jsObjSet c.chunkId c m) m) = some c := by
  induction chunks with
  | nil => intro c hc; cases hc
  | cons d rest ih =>
      intro c hc m
      simp only [List.map_cons, List.nodup_cons] at hnodup
      rcases List.mem_cons.mp hc with rfl | hc2
      · rw [List.foldl_cons]
        rw [foldl_jsObjSet_not_mem rest c.chunkId hnodup.1]
        exact jsObjGet_jsObjSet_self _ _ _
      · rw [List.foldl_cons]
        exact ih hnodup.2 c hc2 _

/-- C6 amended: `upsertDocumentWithChunks` merges by key: it installs the
document under its id and each supplied chunk under its chunk id, while any
chunk whose id is not among the supplied ids — in particular every chunk of
a prior generation with a different id — survives untouched.  The SQL ingest
path (`ingestDocumentById`) deletes the old chunks and then inserts the new
rows one statement at a time without a transaction, so an error in the
embedding call leaves a partial new generation behind (see the
counterexample). -/
theorem c6_upsert_merges (corpus : RagV2.CorpusData) (doc : RagV2.DocumentRecord)
    (chunks : List RagV2.ChunkRecord)
    (hnodup : (chunks.map RagV2.ChunkRecord.chunkId).Nodup) :
    jsObjGet doc.docId (CorpusStore.upsertDocumentWithChunks doc chunks corpus).documents =
      some doc ∧
    (∀ c ∈ chunks,
      jsObjGet c.chunkId (CorpusStore.upsertDocumentWithChunks doc chunks corpus).chunks =
        some c) ∧
    (∀ k, k ∉ chunks.map RagV2.ChunkRecord.chunkId →
      jsObjGet k (CorpusStore.upsertDocumentWithChunks doc chunks corpus).chunks =
        jsObjGet k corpus.chunks) ∧
    (∀ k, k ≠ doc.docId →
      jsObjGet k (CorpusStore.upsertDocumentWithChunks doc chunks corpus).documents =
        jsObjGet k corpus.documents) := by
  refine ⟨?_, ?_, ?_, ?_⟩
  · exact jsObjGet_jsObjSet_self _ _ _
  · intro c hc
    exact foldl_jsObjSet_mem chunks hnodup c hc _
  · intro k hk
    exact foldl_jsObjSet_not_mem chunks k hk _
  · intro k hk
    exact jsObjGet_jsObjSet_ne _ _ _ hk _

/-- C6 counterexample: re-upserting document `d` with the single chunk
`d_c0` leaves the first-generation chunk `d_c1` retrievable (the JSON-corpus
upsert deletes nothing), and the SQL ingest path, when the embedding call
fails, reports an error while the store has already lost the old chunks and
gained one new row — it is neither unchanged nor the new chunk set. -/
theorem c6_counterexample :
    ((jsObjGet "d_c1"
        (CorpusStore.upsertDocumentWithChunks c6Doc [c6NewChunk0] c6Corpus).chunks).isSome
      = true) ∧
    "d_c1" ∉ [c6NewChunk0].map RagV2.ChunkRecord.chunkId ∧
    Ingest.ingestDocumentById (fun _ => Except.error ()) (some "ab".toList) 1
        ⟨[⟨5, 1, 0, "old".toList⟩], [⟨5, [1]⟩], 6⟩ =
      Except.error ⟨[⟨6, 1, 0, "ab".toList⟩], [], 7⟩ ∧
    (⟨[⟨6, 1, 0, "ab".toList⟩], [], 7⟩ : Ingest.Store) ≠
      ⟨[⟨5, 1, 0, "old".toList⟩], [⟨5, [1]⟩], 6⟩ := by
  refine ⟨?_, by decide, ?_, by decide⟩
  · rfl
  · rfl

/-- Witness for the amended C6 at the concrete corpus of the
counterexample. -/
theorem c6_upsert_merges_witness :
    ([c6NewChunk0].map RagV2.ChunkRecord.chunkId).Nodup ∧
    jsObjGet "d" (CorpusStore.upsertDocumentWithChunks c6Doc [c6NewChunk0] c6Corpus).documents
      = some c6Doc ∧
    jsObjGet "d_c1" (CorpusStore.upsertDocumentWithChunks c6Doc [c6NewChunk0] c6Corpus).chunks
      = jsObjGet "d_c1" c6Corpus.chunks := by
  have hnodup : ([c6NewChunk0].map RagV2.ChunkRecord.chunkId).Nodup := by decide
  have h := c6_upsert_merges c6Corpus c6Doc [c6NewChunk0] hnodup
  exact ⟨hnodup, h.1, h.2.2.1 "d_c1" (by decide)⟩

/-- C2 (code bug): the `/ai/v2/chat` scope assembly has no superuser branch,
so a platform-superuser receives the plain tenant scope `companyId = 7` with
no further constraint — the tenant-master shape — and a tenant scope over a
store holding a tenant-7 document returns candidates, not zero.  (The login
mapping really does classify such positions as the `superuser` role, and the
documents listing route blocks that role with a `1 = 0` condition, showing
the deny-all intent the chat path misses.) -/
theorem c2_superuser_scope_returns_candidates :
    AiV2.assembleChatScope false (some c2SuperIdentity) AiV2.noChatFilters =
      ⟨7, none, none, none, none, none⟩ ∧
    AuthService.mapPositionToRole "Superuser da Plataforma".toList = "superuser" ∧
    RagSql.getChunksFromDatabase [c2DemoRow] (RagSql.tenantOnlyScope 7) ≠ [] := by
  refine ⟨rfl, rfl, ?_⟩
  have h : RagSql.getChunksFromDatabase [c2DemoRow] (RagSql.tenantOnlyScope 7) =
      [RagSql.rowToChunk c2DemoRow] := rfl
  simp [h]

/-- C3 (code bug): an unrecognised role string fails open, not closed: the
scope assembly gives it no department, division or owner constraint — the
very scope shape the tenant-master role receives — while the regular-user
row for the same identity pins `ownerUserId` to the caller.  Only the login
position-to-role mapping falls back to `user`. -/
theorem c3_unknown_role_fails_open :
    AiV2.assembleChatScope false (some c3UnknownIdentity) AiV2.noChatFilters =
      ⟨7, none, none, none, none, none⟩ ∧
    AiV2.assembleChatScope false (some c3UnknownIdentity) AiV2.noChatFilters =
      AiV2.assembleChatScope false (some c3MasterIdentity) AiV2.noChatFilters ∧
    AiV2.assembleChatScope false (some c3UserIdentity) AiV2.noChatFilters =
      ⟨7, some "3", some "2", some 9, none, none⟩ ∧
    AuthService.mapPositionToRole "auditor".toList = "user" :=
  ⟨rfl, rfl, rfl, rfl⟩

theorem mergeIdentity_companyId (u : AiV2.AuthUser) (f : AiV2.ChatFilters) :
    (AiV2.mergeIdentity u f).companyId =
      if u.companyId.isSome && f.companyId.isNone then u.companyId else f.companyId := by
  simp only [AiV2.mergeIdentity]
  split_ifs <;> rfl

/-- C10: when neither the caller's filters nor the authenticated identity
supplies a company id, the `/ai/v2/chat` scope is built with the concrete
tenant `companyId = 1` — not a deny-all or tenant-less scope. -/
theorem c10_default_tenant_one (skipAuth : Bool) (user : Option AiV2.AuthUser)
    (body : AiV2.ChatFilters) (hbody : body.companyId = none)
    (huser : skipAuth = true ∨ user = none ∨ ∃ u, user = some u ∧ u.companyId = none) :
    (AiV2.assembleChatScope skipAuth user body).companyId = 1 := by
  cases skipAuth with
  | true =>
      cases user <;> simp [AiV2.assembleChatScope, hbody]
  | false =>
      cases user with
      | none => simp [AiV2.assembleChatScope, hbody]
      | some u =>
          have hu : u.companyId = none := by
            rcases huser with h | h | ⟨u2, hu2, hcid⟩
            · cases h
            · cases h
            · cases hu2
              exact hcid
          simp [AiV2.assembleChatScope, mergeIdentity_companyId, hu, hbody]

/-- Witness for C10: an unauthenticated request (no user object) with empty
filters resolves to tenant 1. -/
theorem c10_default_tenant_one_witness :
    AiV2.noChatFilters.companyId = none ∧
    (AiV2.assembleChatScope false none AiV2.noChatFilters).companyId = 1 :=
  ⟨rfl, c10_default_tenant_one false none AiV2.noChatFilters rfl (Or.inr (Or.inl rfl))⟩

/-- C5 counterexample: `answerWithLLM` with an empty ranked result list still
performs one LLM call and returns whatever the model answers — not the fixed
no-matching-documents message and not zero calls. -/
theorem c5_counterexample :
    ¬ ((RagV2.answerWithLLM (fun _ => some "resposta".toList) (fun _ => [])
          "q".toList []).llmCalls = 0) ∧
    (RagV2.answerWithLLM (fun _ => some "resposta".toList) (fun _ => [])
        "q".toList []).answer ≠ RagSql.fixedNoDocsAnswer := by
  constructor
  · have h : (RagV2.answerWithLLM (fun _ => some "resposta".toList) (fun _ => [])
        "q".toList []).llmCalls = 1 := rfl
    rw [h]
    decide
  · have h : (RagV2.answerWithLLM (fun _ => some "resposta".toList) (fun _ => [])
        "q".toList []).answer = "resposta".toList := rfl
    rw [h]
    decide

/-- C5 amended: the SQL-path composer `askWithRag` does short-circuit — zero
fetched candidates yield the fixed no-documents answer with zero embedding
and zero LLM calls — but part_007's Answer Composer `answerWithLLM` performs
exactly one LLM call for every input, including an empty ranked list. -/
theorem c5_amended_short_circuit (embedFn : List Char → List ℝ)
    (llm : List Char → List Char → Option (List Char) × Nat)
    (db : List RagSql.Row) (question : List Char) (scope : RagSql.RagScope)
    (topK : ℤ) (includeContext : Bool)
    (hq : jsTrim question ≠ [])
    (hdb : RagSql.getChunksFromDatabase db scope = []) :
    RagSql.askWithRag embedFn llm db question scope topK includeContext =
      .ok (⟨RagSql.fixedNoDocsAnswer, [], 0, 0⟩, 0, 0) ∧
    ∀ (llm2 : List Char → Option (List Char)) (fmt : ℝ → List Char)
      (q : List Char) (results : List RagV2.SearchResult),
      (RagV2.answerWithLLM llm2 fmt q results).llmCalls = 1 := by
  constructor
  · rw [RagSql.askWithRag]
    rw [if_neg (by simpa [List.isEmpty_iff] using hq)]
    simp only [hdb]
    rfl
  · intro llm2 fmt q results
    rfl

/-- Witness for the amended C5: a non-empty question over an empty store. -/
theorem c5_amended_short_circuit_witness :
    jsTrim "q".toList ≠ [] ∧
    RagSql.getChunksFromDatabase [] (RagSql.tenantOnlyScope 1) = [] ∧
    RagSql.askWithRag (fun _ => []) (fun _ _ => (none, 0)) [] "q".toList
        (RagSql.tenantOnlyScope 1) 5 true =
      .ok (⟨RagSql.fixedNoDocsAnswer, [], 0, 0⟩, 0, 0) := by
  have h := c5_amended_short_circuit (fun _ => []) (fun _ _ => (none, 0)) [] "q".toList
    (RagSql.tenantOnlyScope 1) 5 true (by decide) rfl
  exact ⟨by decide, rfl, h.1⟩

theorem jsSliceTo_sublist (k : ℤ) (l : List α) : List.Sublist (jsSliceTo k l) l := by
  rw [jsSliceTo]
  split_ifs <;> exact List.take_sublist _ _

theorem mem_filteredPairs {filters : Option RagV2.SearchFilters} {corpus : RagV2.CorpusData}
    {cd : RagV2.ChunkRecord × RagV2.DocumentRecord}
    (h : cd ∈ RagV2.filteredPairs filters corpus) : RagV2.keepDoc filters cd.2 = true := by
  rcases List.mem_filterMap.mp h with ⟨chunk, _, heq⟩
  revert heq
  cases hl : RagV2.lookupDoc corpus chunk.docId with
  | none =>
      intro heq
      simp at heq
  | some doc =>
      intro heq
      dsimp only at heq
      by_cases hk : RagV2.keepDoc filters doc = true
      · rw [if_pos hk] at heq
        cases heq
        exact hk
      · rw [if_neg hk] at heq
        cases heq

theorem mem_scoredResults {qe : List ℝ} {q : List Char} {filters : Option RagV2.SearchFilters}
    {corpus : RagV2.CorpusData} {r : RagV2.SearchResult}
    (h : r ∈ RagV2.scoredResults qe q filters corpus) :
    RagV2.keepDoc filters r.document = true ∧ (0.35 : ℝ) < r.score := by
  rcases List.mem_filterMap.mp h with ⟨cd, hcd, heq⟩
  by_cases hs : (0.35 : ℝ) < RagV2.blendedScore qe q cd.1
  · simp only [if_pos hs] at heq
    cases heq
    exact ⟨mem_filteredPairs hcd, hs⟩
  · simp only [if_neg hs] at heq
    cases heq

theorem mem_searchTagged {qe : List ℝ} {q : List Char} {topK : ℤ}
    {filters : Option RagV2.SearchFilters} {corpus : RagV2.CorpusData}
    {x : ℕ × RagV2.SearchResult} (h : x ∈ RagV2.searchTagged qe q topK filters corpus) :
    x.2 ∈ RagV2.scoredResults qe q filters corpus := by
  rw [RagV2.searchTagged] at h
  split_ifs at h with h1 h2
  · cases h
  · cases h
  · have hsub := (jsSliceTo_sublist topK
      (stableSortByScoreDesc RagV2.SearchResult.score
        (RagV2.scoredResults qe q filters corpus))).subset h
    have hperm := List.perm_insertionSort (scoreDescRel RagV2.SearchResult.score)
      (RagV2.scoredResults qe q filters corpus).enum
    have henum : x ∈ (RagV2.scoredResults qe q filters corpus).enum :=
      hperm.subset (by simpa [stableSortByScoreDesc] using hsub)
    have := List.mem_map_of_mem Prod.snd henum
    rwa [List.enum_map_snd] at this

theorem keepDoc_companyId {filters : RagV2.SearchFilters} {doc : RagV2.DocumentRecord}
    {cid : ℤ} (hk : RagV2.keepDoc (some filters) doc = true)
    (hc : filters.companyId = some cid) :
    (doc.metadata.getD RagV2.emptyMetadata).companyId = some cid := by
  simp only [RagV2.keepDoc, hc, Option.some_bind, Bool.and_eq_true] at hk
  have h1 := hk.1.1.1.1.1
  simpa using h1

/-- C1: candidate fetch is tenant-scoped in both implementations.  Every
chunk returned by the SQL `getChunksFromDatabase` carries the scope's
company id (the WHERE clause always pushes the tenant equality), and every
result of part_007's `search` under filters carrying a company id belongs to
a document whose metadata carries exactly that company id. -/
theorem c1_tenant_isolation :
    (∀ (db : List RagSql.Row) (scope : RagSql.RagScope),
      (RagSql.getChunksFromDatabase db scope).all
        (fun c => c.metadata.companyId == scope.companyId) = true) ∧
    (∀ (qe : List ℝ) (q : List Char) (topK : ℤ) (filters : RagV2.SearchFilters)
        (corpus : RagV2.CorpusData) (cid : ℤ), filters.companyId = some cid →
      (RagV2.search qe q topK (some filters) corpus).all
        (fun r => (r.document.metadata.getD RagV2.emptyMetadata).companyId == some cid)
        = true) := by
  constructor
  · intro db scope
    rw [List.all_eq_true]
    intro c hc
    simp only [RagSql.getChunksFromDatabase, List.map_map] at hc
    rcases List.mem_map.mp hc with ⟨y, hy, hyc⟩
    have hperm := List.perm_insertionSort RagSql.createdAtDescRel
      (db.filter (RagSql.whereMatches scope)).enum
    have henum : y ∈ (db.filter (RagSql.whereMatches scope)).enum := hperm.subset hy
    have hrow : y.2 ∈ db.filter (RagSql.whereMatches scope) := by
      have := List.mem_map_of_mem Prod.snd henum
      rwa [List.enum_map_snd] at this
    have hw : RagSql.whereMatches scope y.2 = true := List.of_mem_filter hrow
    simp only [RagSql.whereMatches, Bool.and_eq_true] at hw
    have hcid := hw.1.1.1.1.1.1
    rw [← hyc]
    simpa [RagSql.rowToChunk] using hcid
  · intro qe q topK filters corpus cid hc
    rw [List.all_eq_true]
    intro r hr
    rcases List.mem_map.mp hr with ⟨x, hx, hxr⟩
    have hscored := mem_searchTagged hx
    have hkeep := (mem_scoredResults hscored).1
    have := keepDoc_companyId hkeep hc
    rw [← hxr]
    simpa using this

/-- Witness for C1 over stores seeded across two tenants. -/
theorem c1_tenant_isolation_witness :
    c1Filters.companyId = some 1 ∧
    (RagSql.getChunksFromDatabase [c1Row1, c1Row2] (RagSql.tenantOnlyScope 1)).all
      (fun c => c.metadata.companyId == (RagSql.tenantOnlyScope 1).companyId) = true ∧
    (RagV2.search [] "q".toList 5 (some c1Filters) c1Corpus).all
      (fun r => (r.document.metadata.getD RagV2.emptyMetadata).companyId == some 1)
      = true :=
  ⟨rfl, c1_tenant_isolation.1 [c1Row1, c1Row2] (RagSql.tenantOnlyScope 1),
    c1_tenant_isolation.2 [] "q".toList 5 c1Filters c1Corpus 1 rfl⟩

theorem jsSliceTo_length_le {k : ℤ} (hk : 0 ≤ k) (l : List α) :
    ((jsSliceTo k l).length : ℤ) ≤ k := by
  rw [jsSliceTo, if_neg (by omega)]
  have h1 : (l.take k.toNat).length ≤ k.toNat := by
    simp [List.length_take]
  have h2 : ((l.take k.toNat).length : ℤ) ≤ (k.toNat : ℤ) := Int.ofNat_le.mpr h1
  rwa [Int.toNat_of_nonneg hk] at h2

/-- C4 amended: for every query embedding, query, filters, corpus and every
nonnegative `topK`, part_007's `search` (position-tagged form) returns at
most `topK` results, none below the `0.35` relevance floor, sorted
non-increasing by blended score with ties kept in candidate insertion order;
`search` itself is the tag-erased image.  (For negative `topK` the JS
`slice(0, topK)` counts from the end of the array and the length bound fails:
see the counterexample.) -/
theorem c4_rank_bounds (qe : List ℝ) (q : List Char) (topK : ℤ)
    (filters : Option RagV2.SearchFilters) (corpus : RagV2.CorpusData)
    (htopK : 0 ≤ topK) :
    RagV2.search qe q topK filters corpus =
      (RagV2.searchTagged qe q topK filters corpus).map Prod.snd ∧
    ((RagV2.searchTagged qe q topK filters corpus).length : ℤ) ≤ topK ∧
    (∀ x ∈ RagV2.searchTagged qe q topK filters corpus, ¬ x.2.score < 0.35) ∧
    (RagV2.searchTagged qe q topK filters corpus).Pairwise
      (fun a b => b.2.score ≤ a.2.score) ∧
    (RagV2.searchTagged qe q topK filters corpus).Pairwise
      (fun a b => a.2.score = b.2.score → a.1 < b.1) := by
  refine ⟨rfl, ?_, ?_, ?_, ?_⟩
  · rw [RagV2.searchTagged]
    split_ifs
    · simpa using htopK
    · simpa using htopK
    · exact jsSliceTo_length_le htopK _
  · intro x hx
    have h := (mem_scoredResults (mem_searchTagged hx)).2
    exact not_lt.mpr h.le
  · rw [RagV2.searchTagged]
    split_ifs
    · exact List.Pairwise.nil
    · exact List.Pairwise.nil
    · have hsorted := List.sorted_insertionSort (scoreDescRel RagV2.SearchResult.score)
        (RagV2.scoredResults qe q filters corpus).enum
      have hp : (stableSortByScoreDesc RagV2.SearchResult.score
          (RagV2.scoredResults qe q filters corpus)).Pairwise
          (fun a b => b.2.score ≤ a.2.score) := by
        refine List.Pairwise.imp ?_ hsorted
        intro a b hab
        rcases hab with h | ⟨h, _⟩
        · exact h.le
        · exact h.ge
      exact hp.sublist (jsSliceTo_sublist _ _)
  · rw [RagV2.searchTagged]
    split_ifs
    · exact List.Pairwise.nil
    · exact List.Pairwise.nil
    · have hsorted := List.sorted_insertionSort (scoreDescRel RagV2.SearchResult.score)
        (RagV2.scoredResults qe q filters corpus).enum
      have hperm := List.perm_insertionSort (scoreDescRel RagV2.SearchResult.score)
        (RagV2.scoredResults qe q filters corpus).enum
      have hnodup : ((stableSortByScoreDesc RagV2.SearchResult.score
          (RagV2.scoredResults qe q filters corpus)).map Prod.fst).Nodup := by
        have h1 : ((RagV2.scoredResults qe q filters corpus).enum.map Prod.fst).Nodup := by
          rw [List.enum_map_fst]
          exact List.nodup_range _
        exact ((hperm.map Prod.fst).nodup_iff).mpr h1
      have hne : (stableSortByScoreDesc RagV2.SearchResult.score
          (RagV2.scoredResults qe q filters corpus)).Pairwise
          (fun a b => a.1 ≠ b.1) := by
        have := List.pairwise_map.mp hnodup
        exact this
      have hp : (stableSortByScoreDesc RagV2.SearchResult.score
          (RagV2.scoredResults qe q filters corpus)).Pairwise
          (fun a b => a.2.score = b.2.score → a.1 < b.1) := by
        have hand := List.Pairwise.and hsorted hne
        refine List.Pairwise.imp ?_ hand
        intro a b hab heq
        rcases hab with ⟨h | ⟨_, hle⟩, hne2⟩
        · rw [heq] at h
          exact absurd h (lt_irrefl _)
        · exact lt_of_le_of_ne hle hne2
      exact hp.sublist (jsSliceTo_sublist _ _)

/-- C4 counterexample: `search` with `topK = -1` (the claim quantifies over
every `topK`) returns a list longer than `topK` — here the empty corpus
yields zero results, and `0 ≤ -1` is false; no clamping is performed. -/
theorem c4_counterexample :
    ¬ (((RagV2.search [] "q".toList (-1) none RagV2.emptyCorpus).length : ℤ) ≤ -1) := by
  have h : RagV2.search [] "q".toList (-1) none RagV2.emptyCorpus = [] := rfl
  rw [h]
  decide

/-- Witness for the amended C4 at `topK = 5` over the empty corpus. -/
theorem c4_rank_bounds_witness :
    (0 : ℤ) ≤ 5 ∧
    ((RagV2.searchTagged [] "q".toList 5 none RagV2.emptyCorpus).length : ℤ) ≤ 5 ∧
    (RagV2.searchTagged [] "q".toList 5 none RagV2.emptyCorpus).Pairwise
      (fun a b => b.2.score ≤ a.2.score) :=
  ⟨by decide,
    (c4_rank_bounds [] "q".toList 5 none RagV2.emptyCorpus (by decide)).2.1,
    (c4_rank_bounds [] "q".toList 5 none RagV2.emptyCorpus (by decide)).2.2.2.1⟩

theorem zipWith_self_eq_map_sq (l : List ℝ) :
    List.zipWith (· * ·) l l = l.map (fun x => x * x) := by
  induction l with
  | nil => rfl
  | cons x t ih => simp [ih]

theorem sumSq_nonneg (l : List ℝ) : 0 ≤ (List.zipWith (· * ·) l l).sum := by
  induction l with
  | nil => simp
  | cons x t ih =>
      simp only [List.zipWith_cons_cons, List.sum_cons]
      have := mul_self_nonneg x
      linarith

theorem sumSq_eq_zero_iff (l : List ℝ) :
    (List.zipWith (· * ·) l l).sum = 0 ↔ ∀ x ∈ l, x = 0 := by
  induction l with
  | nil => simp
  | cons x t ih =>
      simp only [List.zipWith_cons_cons, List.sum_cons, List.mem_cons]
      constructor
      · intro h
        have h1 : 0 ≤ x * x := mul_self_nonneg x
        have h2 : 0 ≤ (List.zipWith (· * ·) t t).sum := sumSq_nonneg t
        have hx : x * x = 0 := by linarith
        have ht : (List.zipWith (· * ·) t t).sum = 0 := by linarith
        intro y hy
        rcases hy with rfl | hy
        · exact mul_self_eq_zero.mp hx
        · exact ih.mp ht y hy
      · intro h
        have hx : x = 0 := h x (Or.inl rfl)
        have ht : (List.zipWith (· * ·) t t).sum = 0 := ih.mpr (fun y hy => h y (Or.inr hy))
        have ht2 : (List.map (fun a => a * a) t).sum = 0 := by
          rw [← zipWith_self_eq_map_sq t]
          exact ht
        simp [hx, ht2]

theorem dot_comm (a b : List ℝ) :
    (List.zipWith (· * ·) a b).sum = (List.zipWith (· * ·) b a).sum := by
  induction a generalizing b with
  | nil => cases b <;> rfl
  | cons x t ih =>
      cases b with
      | nil => rfl
      | cons y s => simp [ih s, mul_comm]

theorem dot_zero_left (a b : List ℝ) (h : ∀ x ∈ a, x = 0) :
    (List.zipWith (· * ·) a b).sum = 0 := by
  induction a generalizing b with
  | nil => rfl
  | cons x t ih =>
      cases b with
      | nil => rfl
      | cons y s =>
          have hx : x = 0 := h x (List.mem_cons_self _ _)
          simp [hx, ih s (fun z hz => h z (List.mem_cons.mpr (Or.inr hz)))]

/-- C7: cosine similarity is symmetric, one on a non-zero vector paired with
itself, and zero whenever either norm is zero, in both implementations
(part_007 checks the lengths and guards the zero norms explicitly; the SQL
path replaces a zero denominator by `1`).  The SQL-path statements assume
equal lengths, the only case free of `NaN` in the JS code. -/
theorem c7_cosine_properties :
    (∀ a b : List ℝ, RagV2.cosineSimilarity a b = RagV2.cosineSimilarity b a) ∧
    (∀ a : List ℝ, (∃ x ∈ a, x ≠ 0) → RagV2.cosineSimilarity a a = 1) ∧
    (∀ a b : List ℝ,
      (List.zipWith (· * ·) a a).sum = 0 ∨ (List.zipWith (· * ·) b b).sum = 0 →
      RagV2.cosineSimilarity a b = 0) ∧
    (∀ a b : List ℝ, a.length = b.length →
      RagSql.cosineSimilarity a b = RagSql.cosineSimilarity b a) ∧
    (∀ a : List ℝ, (∃ x ∈ a, x ≠ 0) → RagSql.cosineSimilarity a a = 1) ∧
    (∀ a b : List ℝ, a.length = b.length →
      (List.zipWith (· * ·) a a).sum = 0 ∨ (List.zipWith (· * ·) b b).sum = 0 →
      RagSql.cosineSimilarity a b = 0) := by
  have htake : ∀ a b : List ℝ, a.length = b.length → b.take a.length = b := by
    intro a b h
    rw [h]
    exact List.take_length b
  refine ⟨?_, ?_, ?_, ?_, ?_, ?_⟩
  · intro a b
    by_cases hl : a.length = b.length
    · simp only [RagV2.cosineSimilarity, if_neg (by omega : ¬ a.length ≠ b.length),
        if_neg (by omega : ¬ b.length ≠ a.length)]
      rw [dot_comm a b]
      exact if_congr or_comm rfl (by rw [mul_comm])
    · simp only [RagV2.cosineSimilarity, if_pos (by omega : a.length ≠ b.length),
        if_pos (by omega : b.length ≠ a.length)]
  · intro a ha
    have hne : (List.zipWith (· * ·) a a).sum ≠ 0 := by
      intro h0
      obtain ⟨x, hx, hxne⟩ := ha
      exact hxne ((sumSq_eq_zero_iff a).mp h0 x hx)
    simp only [RagV2.cosineSimilarity, if_neg (by omega : ¬ a.length ≠ a.length)]
    rw [if_neg (by simpa using hne)]
    rw [Real.mul_self_sqrt (sumSq_nonneg a)]
    exact div_self hne
  · intro a b h
    by_cases hl : a.length = b.length
    · simp only [RagV2.cosineSimilarity, if_neg (by omega : ¬ a.length ≠ b.length)]
      rw [if_pos h]
    · simp only [RagV2.cosineSimilarity, if_pos (by omega : a.length ≠ b.length)]
  · intro a b h
    simp only [RagSql.cosineSimilarity]
    rw [htake a b h, htake b a h.symm]
    rw [dot_comm a b]
    rw [← zipWith_self_eq_map_sq a, ← zipWith_self_eq_map_sq b]
    rw [mul_comm (Real.sqrt (List.zipWith (· * ·) a a).sum) _]
  · intro a ha
    have hne : (List.zipWith (· * ·) a a).sum ≠ 0 := by
      intro h0
      obtain ⟨x, hx, hxne⟩ := ha
      exact hxne ((sumSq_eq_zero_iff a).mp h0 x hx)
    simp only [RagSql.cosineSimilarity]
    rw [List.take_length a, ← zipWith_self_eq_map_sq a]
    rw [Real.mul_self_sqrt (sumSq_nonneg a)]
    rw [if_neg hne]
    exact div_self hne
  · intro a b hl h
    have hdot : (List.zipWith (· * ·) a b).sum = 0 := by
      rcases h with h | h
      · exact dot_zero_left a b ((sumSq_eq_zero_iff a).mp h)
      · rw [dot_comm]
        exact dot_zero_left b a ((sumSq_eq_zero_iff b).mp h)
    simp only [RagSql.cosineSimilarity]
    rw [hdot]
    exact zero_div _

/-- Witness for C7 at the one-dimensional vector `[1]`. -/
theorem c7_cosine_properties_witness :
    (∃ x ∈ [(1 : ℝ)], x ≠ 0) ∧ ([(1 : ℝ)].length = [(1 : ℝ)].length) ∧
    RagV2.cosineSimilarity [(1 : ℝ)] [(1 : ℝ)] = 1 ∧
    RagSql.cosineSimilarity [(1 : ℝ)] [(1 : ℝ)] = 1 := by
  have hx : ∃ x ∈ [(1 : ℝ)], x ≠ 0 := ⟨1, List.mem_singleton.mpr rfl, one_ne_zero⟩
  exact ⟨hx, rfl, c7_cosine_properties.2.1 [(1 : ℝ)] hx,
    c7_cosine_properties.2.2.2.2.1 [(1 : ℝ)] hx⟩
